import Mathlib

/-!
Shallow embedding of the propositional-logic entailment core of `ergo.py`:
scanner, shunting-yard parser producing postfix output, compilation of the
postfix stream to an evaluable boolean-expression string, a model of the
dynamic evaluation of such strings, and the model-enumeration entailment
engine with its 2-bit verdict flags.  All machine strings are modelled by
their character lists; syntax errors become an explicit error type carrying
the reported position and the tokens named in the message.
-/

/-- Operator tokens in order of increasing precedence (`ops` in the source). -/
def ops : List String := ["=>", "v", "^", "~"]

/-- The fixed atomic alphabet (`atomics = 'abcd'` in the source). -/
def atomics : List Char := ['a', 'b', 'c', 'd']

/-- Precedence of an operator token: its index in `ops`. -/
def precedence (t : String) : Nat := ops.indexOf t

/-- Syntax errors (and the one uncatchable crash) of the compilation
pipeline.  Each constructor mirrors one `error(...)` call site, carrying the
reported character position and the token text interpolated in the message.
`uncaughtIndexError` models the unguarded `result.pop()` on an empty list at
the end of `compile_to_python` (a crash, not a reported syntax error). -/
inductive Err where
  | emptyExpression : Err
  | invalidToken : Int → String → Err
  | missingOperator : Int → String → String → Err
  | missingOperand : Int → String → Err
  | emptyParentheses : Int → Err
  | unpairedClose : Int → Err
  | unpairedOpen : Int → Err
  | uncaughtIndexError : Err
  deriving DecidableEq

/-- Is the token a single atomic letter (`token in atomics` on a token)? -/
def isAtomicTok (t : String) : Bool :=
  match t.data with
  | [c] => c ∈ atomics
  | _ => false

/-- Does the previous token end an expression (`last_token in atomics + ')'`)? -/
def afterExp (last : String) : Bool := isAtomicTok last || last == ")"

/-- Characters matched by the single-character alternatives of the scanner
pattern (operators other than `=>`, atomics, parentheses). -/
def tokChar (c : Char) : Bool :=
  c = 'v' || c = '^' || c = '~' || c ∈ atomics || c = '(' || c = ')'

/-- ASCII whitespace matched by the regex class in the scanner pattern. -/
def isWs (c : Char) : Bool :=
  c = ' ' || c = '\t' || c = '\n' || c = '\x0b' || c = '\x0c' || c = '\r'

/-- Character run reported by an `invalid token` error: the remainder of the
input from the failing position up to the next position where the scanner
pattern matches (or to the end of input). -/
def invalidTextAux : List Char → List Char
  | [] => []
  | '=' :: '>' :: _ => []
  | c :: rest => if tokChar c || isWs c then [] else c :: invalidTextAux rest

/-- String form of `invalidTextAux`. -/
def invalidText (cs : List Char) : String := ⟨invalidTextAux cs⟩

/-- Scanner loop: repeatedly match the token pattern at the current
position, yielding positioned tokens and skipping whitespace, or fail with
`invalidToken` where the pattern does not match. -/
def scanAux : Nat → List Char → Except Err (List (Nat × String))
  | _, [] => .ok []
  | pos, [c] =>
    if tokChar c then .ok [(pos, String.singleton c)]
    else if isWs c then .ok []
    else .error (.invalidToken (pos : Int) (invalidText [c]))
  | pos, c :: c2 :: rest =>
    if c = '=' ∧ c2 = '>' then
      match scanAux (pos + 2) rest with
      | .error e => .error e
      | .ok toks => .ok ((pos, "=>") :: toks)
    else if tokChar c then
      match scanAux (pos + 1) (c2 :: rest) with
      | .error e => .error e
      | .ok toks => .ok ((pos, String.singleton c) :: toks)
    else if isWs c then scanAux (pos + 1) (c2 :: rest)
    else .error (.invalidToken (pos : Int) (invalidText (c :: c2 :: rest)))

/-- Lower-casing of the input string (`expression.lower()`). -/
def lowerStr (s : String) : String := ⟨s.data.map Char.toLower⟩

/-- The scanner: yields positioned tokens of the expression, or fails with
`emptyExpression` on an empty input or `invalidToken` at the first
unrecognizable character. -/
def scanner (expression : String) : Except Err (List (Nat × String)) :=
  if expression.data.length = 0 then .error .emptyExpression
  else scanAux 0 expression.data

/-- Parser state: pending-operator stack, previous token and its position,
and the postfix output emitted so far (the generator's yields). -/
structure PState where
  stack : List (Nat × String)
  lastPos : Int
  lastTok : String
  out : List (Nat × String)
  deriving DecidableEq

/-- Initial parser state (`stack = []`, `last_pos, last_tok = -1, chr(0)`). -/
def pinit : PState := ⟨[], -1, "\x00", []⟩

/-- Check that the current token does not directly follow an expression
(`not_after_exp`): error if the previous token is an atomic or `)`. -/
def not_after_exp (pos : Nat) (token last : String) : Except Err Unit :=
  if afterExp last then .error (.missingOperator (pos : Int) last token) else .ok ()

/-- Check that the current position does not directly follow an operator
(`not_after_op`): error if the previous token is an operator. -/
def not_after_op (lastPos : Int) (last : String) : Except Err Unit :=
  if last ∈ ops then .error (.missingOperand lastPos last) else .ok ()

/-- Pop stack entries until an opening parenthesis is popped and discarded;
`none` models the `IndexError` of popping an empty stack.  Returns the
entries emitted (in pop order) and the stack below the parenthesis. -/
def popToLParen : List (Nat × String) → Option (List (Nat × String) × List (Nat × String))
  | [] => none
  | (p, t) :: rest =>
    if t = "(" then some ([], rest)
    else
      match popToLParen rest with
      | none => none
      | some (popped, rem) => some ((p, t) :: popped, rem)

/-- Pop and emit stack entries while the top is an operator of precedence at
least `tokPrec`; stopping on an opening parenthesis or an empty stack models
the caught `ValueError` / `IndexError`. -/
def popGePrec (tokPrec : Nat) : List (Nat × String) → List (Nat × String) × List (Nat × String)
  | [] => ([], [])
  | (p, t) :: rest =>
    if t ∈ ops ∧ tokPrec ≤ precedence t then
      let (popped, rem) := popGePrec tokPrec rest
      ((p, t) :: popped, rem)
    else ([], (p, t) :: rest)

/-- One iteration of the parser loop, on the next positioned token
`(pt.1, pt.2)` = (position, token). -/
def pstep (s : PState) (pt : Nat × String) : Except Err PState :=
  if isAtomicTok pt.2 then
    match not_after_exp pt.1 pt.2 s.lastTok with
    | .error e => .error e
    | .ok _ => .ok ⟨s.stack, (pt.1 : Int), pt.2, s.out ++ [pt]⟩
  else if pt.2 = "(" then
    match not_after_exp pt.1 pt.2 s.lastTok with
    | .error e => .error e
    | .ok _ => .ok ⟨pt :: s.stack, (pt.1 : Int), pt.2, s.out⟩
  else if pt.2 = ")" then
    if s.lastTok = "(" then .error (.emptyParentheses (pt.1 : Int))
    else
      match not_after_op s.lastPos s.lastTok with
      | .error e => .error e
      | .ok _ =>
        match popToLParen s.stack with
        | none => .error (.unpairedClose (pt.1 : Int))
        | some pr => .ok ⟨pr.2, (pt.1 : Int), pt.2, s.out ++ pr.1⟩
  else
    match
      (if pt.2 = "~" then not_after_exp pt.1 pt.2 s.lastTok
       else if s.lastTok = "(" then .error (.missingOperand (pt.1 : Int) pt.2)
       else not_after_op s.lastPos s.lastTok) with
    | .error e => .error e
    | .ok _ =>
      .ok ⟨pt :: (popGePrec (precedence pt.2) s.stack).2, (pt.1 : Int), pt.2,
           s.out ++ (popGePrec (precedence pt.2) s.stack).1⟩

/-- Drain the stack at end of input: error on a leftover opening
parenthesis, otherwise emit the entries in pop order. -/
def drainStack : List (Nat × String) → Except Err (List (Nat × String))
  | [] => .ok []
  | (p, t) :: rest =>
    if t = "(" then .error (.unpairedOpen (p : Int))
    else
      match drainStack rest with
      | .error e => .error e
      | .ok l => .ok ((p, t) :: l)

/-- End-of-input handling of the parser: reject a trailing operator, then
drain the remaining stack after the final output. -/
def pfinal (s : PState) : Except Err (List (Nat × String)) :=
  match not_after_op s.lastPos s.lastTok with
  | .error e => .error e
  | .ok _ =>
    match drainStack s.stack with
    | .error e => .error e
    | .ok popped => .ok (s.out ++ popped)

/-- The shunting-yard parser `parse_rpn`: lower-case, scan, run the token
loop from the initial state, and finalize; the result is the full postfix
output (the concatenation of everything the generator yields). -/
def parse_rpn (expression : String) : Except Err (List (Nat × String)) :=
  match scanner (lowerStr expression) with
  | .error e => .error e
  | .ok toks =>
    match toks.foldlM pstep pinit with
    | .error e => .error e
    | .ok s => pfinal s

/-- One step of `compile_to_python`'s loop: push an operand, or combine the
top of the stack under an operator into a parenthesized Python expression;
an empty pop is the guarded `IndexError` reported as a missing operand. -/
def cstep (result : List String) (pt : Nat × String) : Except Err (List String) :=
  if pt.2 ∈ ops then
    match result with
    | right :: rest =>
      if pt.2 = "~" then .ok (("(not " ++ right ++ ")") :: rest)
      else
        match rest with
        | left :: rest2 =>
          .ok (("(" ++ (if pt.2 = "=>" then "not " else "") ++ left ++ " " ++
                (if pt.2 = "^" then "and" else "or") ++ " " ++ right ++ ")") :: rest2)
        | [] => .error (.missingOperand (pt.1 : Int) pt.2)
    | [] => .error (.missingOperand (pt.1 : Int) pt.2)
  else .ok (pt.2 :: result)

/-- Strip the outermost parentheses of the final compiled expression
(`compiled[1:-1] if compiled[0] == '('`). -/
def stripParens (compiled : String) : String :=
  if compiled.data.head? = some '(' then ⟨(compiled.data.drop 1).dropLast⟩ else compiled

/-- Closing-parenthesis handling as the compile loop observes it: the
parser pops and yields pending operators one at a time and the consumer
compiles each immediately, so a compile error on a popped operator preempts
the `unpairedClose` error that an exhausted stack would raise.  Returns the
compiler stack, the emitted entries, and the stack below the parenthesis. -/
def popCompile (st : List String) (rpPos : Nat) :
    List (Nat × String) →
      Except Err (List String × List (Nat × String) × List (Nat × String))
  | [] => .error (.unpairedClose (rpPos : Int))
  | (p, t) :: rest =>
    if t = "(" then .ok (st, [], rest)
    else
      match cstep st (p, t) with
      | .error e => .error e
      | .ok st2 =>
        match popCompile st2 rpPos rest with
        | .error e => .error e
        | .ok r => .ok (r.1, (p, t) :: r.2.1, r.2.2)

/-- End-of-input stack drain as the compile loop observes it: each leftover
entry is checked for an unpaired opening parenthesis and then compiled
immediately, in pop order. -/
def drainCompile (st : List String) : List (Nat × String) → Except Err (List String)
  | [] => .ok st
  | (p, t) :: rest =>
    if t = "(" then .error (.unpairedOpen (p : Int))
    else
      match cstep st (p, t) with
      | .error e => .error e
      | .ok st2 => drainCompile st2 rest

/-- One iteration of the interleaved parse-and-compile loop: the source's
compile loop consumes the `parse_rpn` generator lazily, so every token the
parser emits is compiled at once and a compile error preempts all later
parser checks.  The state pairs the parser state with the compiler's
expression stack. -/
def pcstep (sc : PState × List String) (pt : Nat × String) :
    Except Err (PState × List String) :=
  if isAtomicTok pt.2 then
    match not_after_exp pt.1 pt.2 sc.1.lastTok with
    | .error e => .error e
    | .ok _ =>
      match cstep sc.2 pt with
      | .error e => .error e
      | .ok st => .ok (⟨sc.1.stack, (pt.1 : Int), pt.2, sc.1.out ++ [pt]⟩, st)
  else if pt.2 = "(" then
    match not_after_exp pt.1 pt.2 sc.1.lastTok with
    | .error e => .error e
    | .ok _ => .ok (⟨pt :: sc.1.stack, (pt.1 : Int), pt.2, sc.1.out⟩, sc.2)
  else if pt.2 = ")" then
    if sc.1.lastTok = "(" then .error (.emptyParentheses (pt.1 : Int))
    else
      match not_after_op sc.1.lastPos sc.1.lastTok with
      | .error e => .error e
      | .ok _ =>
        match popCompile sc.2 pt.1 sc.1.stack with
        | .error e => .error e
        | .ok r => .ok (⟨r.2.2, (pt.1 : Int), pt.2, sc.1.out ++ r.2.1⟩, r.1)
  else
    match
      (if pt.2 = "~" then not_after_exp pt.1 pt.2 sc.1.lastTok
       else if sc.1.lastTok = "(" then .error (.missingOperand (pt.1 : Int) pt.2)
       else not_after_op sc.1.lastPos sc.1.lastTok) with
    | .error e => .error e
    | .ok _ =>
      match (popGePrec (precedence pt.2) sc.1.stack).1.foldlM cstep sc.2 with
      | .error e => .error e
      | .ok st =>
        .ok (⟨pt :: (popGePrec (precedence pt.2) sc.1.stack).2, (pt.1 : Int), pt.2,
              sc.1.out ++ (popGePrec (precedence pt.2) sc.1.stack).1⟩, st)

/-- `compile_to_python`: drive the parser over the scanned tokens while
compiling every yielded postfix token immediately (the source's `for` loop
over the `parse_rpn` generator), run the parser's end-of-input operator
check, drain and compile the leftover stack, take the top of the final
compiler stack (crashing with an uncaught `IndexError` when it is empty),
and strip outer parentheses. -/
def compile_to_python (expression : String) : Except Err String :=
  match scanner (lowerStr expression) with
  | .error e => .error e
  | .ok toks =>
    match toks.foldlM pcstep (pinit, []) with
    | .error e => .error e
    | .ok sc =>
      match not_after_op sc.1.lastPos sc.1.lastTok with
      | .error e => .error e
      | .ok _ =>
        match drainCompile sc.2 sc.1.stack with
        | .error e => .error e
        | .ok result =>
          match result with
          | [] => .error .uncaughtIndexError
          | compiled :: _ => .ok (stripParens compiled)

/-- Tokens of the compiled boolean expressions as the dynamic evaluator sees
them: parentheses and maximal letter runs (names and keywords). -/
inductive PTok where
  | lp
  | rp
  | word : String → PTok
  deriving DecidableEq

/-- Lexing of a compiled expression for the dynamic evaluation model:
parentheses and spaces delimit maximal alphabetic words; any other
character is a syntax error of the evaluator (`none`). -/
def pyLex : List Char → Option (List PTok)
  | [] => some []
  | c :: rest =>
    if c.isAlpha then
      match rest, pyLex rest with
      | c' :: _, some (PTok.word w :: ts) =>
        if c'.isAlpha then some (.word (String.singleton c ++ w) :: ts)
        else some (.word (String.singleton c) :: .word w :: ts)
      | _, some ts => some (.word (String.singleton c) :: ts)
      | _, none => none
    else if c = '(' then (pyLex rest).map (.lp :: ·)
    else if c = ')' then (pyLex rest).map (.rp :: ·)
    else if c = ' ' then pyLex rest
    else none

mutual

/-- Evaluate an `or`-level Python boolean expression prefix, returning its
value and the unconsumed tokens; `none` models an evaluation exception. -/
def pOr (env : Char → Bool) : Nat → List PTok → Option (Bool × List PTok)
  | 0, _ => none
  | f + 1, ts =>
    match pAnd env f ts with
    | none => none
    | some (b, rest) => pOrRest env f b rest

/-- Fold further `or` operands onto an already-evaluated left value. -/
def pOrRest (env : Char → Bool) : Nat → Bool → List PTok → Option (Bool × List PTok)
  | 0, _, _ => none
  | f + 1, b, PTok.word "or" :: rest =>
    match pAnd env f rest with
    | none => none
    | some (b2, rest2) => pOrRest env f (b || b2) rest2
  | _ + 1, b, ts => some (b, ts)

/-- Evaluate an `and`-level expression prefix. -/
def pAnd (env : Char → Bool) : Nat → List PTok → Option (Bool × List PTok)
  | 0, _ => none
  | f + 1, ts =>
    match pNot env f ts with
    | none => none
    | some (b, rest) => pAndRest env f b rest

/-- Fold further `and` operands onto an already-evaluated left value. -/
def pAndRest (env : Char → Bool) : Nat → Bool → List PTok → Option (Bool × List PTok)
  | 0, _, _ => none
  | f + 1, b, PTok.word "and" :: rest =>
    match pNot env f rest with
    | none => none
    | some (b2, rest2) => pAndRest env f (b && b2) rest2
  | _ + 1, b, ts => some (b, ts)

/-- Evaluate a `not`-level expression prefix: `not` applications, a bound
atomic name, or a parenthesized expression; an unbound name is a `NameError`
(`none`). -/
def pNot (env : Char → Bool) : Nat → List PTok → Option (Bool × List PTok)
  | 0, _ => none
  | f + 1, PTok.word w :: rest =>
    if w = "not" then
      match pNot env f rest with
      | none => none
      | some (b, r) => some (!b, r)
    else
      match w.data with
      | [c] => if c ∈ atomics then some (env c, rest) else none
      | _ => none
  | f + 1, PTok.lp :: rest =>
    match pOr env f rest with
    | none => none
    | some (b, PTok.rp :: r) => some (b, r)
    | some _ => none
  | _ + 1, PTok.rp :: _ => none
  | _ + 1, [] => none

end

/-- Dynamic evaluation of a compiled expression string in an environment
binding the atomic names: lex, evaluate a full `or`-level expression, and
require all tokens consumed. -/
def pyEval (env : Char → Bool) (s : String) : Option Bool :=
  match pyLex s.data with
  | none => none
  | some ts =>
    match pOr env (3 * ts.length + 9) ts with
    | some (b, []) => some b
    | _ => none

/-- The binding of the atomic names performed by `valuate`: the binary
digits of the assignment index, most significant bit first in alphabet
order, so `a` is bit 3 down to `d` at bit 0 (for indices below 16, the only
ones the engine uses). -/
def assignEnv (atomic_vals : Nat) (c : Char) : Bool :=
  if c = 'a' then atomic_vals.testBit 3
  else if c = 'b' then atomic_vals.testBit 2
  else if c = 'c' then atomic_vals.testBit 1
  else atomic_vals.testBit 0

/-- `valuate`: truth of a compiled proposition under the given assignment of
the atomics, `none` modelling a raised evaluation error. -/
def valuate (proposition : String) (atomic_vals : Nat) : Option Bool :=
  pyEval (assignEnv atomic_vals) proposition

/-- Verdict flag values of the `Implied` enumeration: a 2-bit accumulator. -/
def Implied_VACUOUS : Nat := 0

/-- Flag bit set when some model makes the atomic true. -/
def Implied_PROVEN : Nat := 1

/-- Flag bit set when some model makes the atomic false. -/
def Implied_DISPROVEN : Nat := 2

/-- Both flag bits: the atomic varies across models. -/
def Implied_UNPROVEN : Nat := 3

/-- Conjunction of all premises under one assignment
(`all(map(lambda p: valuate(p, atomic_vals), premises))`), with the laziness
of `all` and error propagation of `valuate` preserved. -/
def premisesHold (premises : List String) (atomic_vals : Nat) : Option Bool :=
  premises.allM (fun p => valuate p atomic_vals)

/-- One iteration of the entailment engine's assignment loop: when the
assignment is a model of all premises, OR the appropriate flag bit into each
atomic's accumulator. -/
def ostep (premises : List String) (implied : Char → Nat) (atomic_vals : Nat) :
    Option (Char → Nat) :=
  match premisesHold premises atomic_vals with
  | none => none
  | some b =>
    if b then
      atomics.foldlM (fun acc atomic =>
        match valuate (String.singleton atomic) atomic_vals with
        | none => none
        | some atomic_val =>
          some (fun x =>
            if x = atomic then
              acc atomic ||| (if atomic_val then Implied_PROVEN else Implied_DISPROVEN)
            else acc x)) implied
    else some implied

/-- `implied_atomics`: enumerate every assignment of the atomic alphabet and
accumulate, for each atomic, the verdict flags over all models of the
premises (starting from `VACUOUS` for every atomic). -/
def implied_atomics (premises : List String) : Option (Char → Nat) :=
  (List.range (2 ^ atomics.length)).foldlM (ostep premises) (fun _ => Implied_VACUOUS)

/-- An assignment index is a model of the premise list when every premise
evaluates to true under it. -/
def isModel (premises : List String) (v : Nat) : Prop :=
  premisesHold premises v = some true

/-- One step of replaying a postfix token under a standard operand counter:
an operand pushes, the unary operator needs one operand, a binary operator
needs two and nets one; `none` is an operand underflow. -/
def rstep (c : Nat) (pt : Nat × String) : Option Nat :=
  if pt.2 ∈ ops then
    if pt.2 = "~" then if 1 ≤ c then some c else none
    else if 2 ≤ c then some (c - 1) else none
  else some (c + 1)

/-- Replay a postfix sequence left to right starting from `c` operands. -/
def replayFrom (c : Nat) (ts : List (Nat × String)) : Option Nat :=
  ts.foldlM rstep c

/-- Replay a postfix sequence from an empty operand stack; a well-formed
sequence replays to exactly one operand. -/
def replay (ts : List (Nat × String)) : Option Nat := replayFrom 0 ts

/-- Is the token one of the three binary operators? -/
def isBinop (t : String) : Bool := t = "=>" || t = "v" || t = "^"

/-- Number of binary operators among the stack entries. -/
def nbL (l : List (Nat × String)) : Nat := l.countP (fun pt => isBinop pt.2)

/-- Does the first scanned token exist and fail to be a binary operator?
(The parser never checks a binary operator against the initial sentinel
previous-token, so a leading binary operator slips through.) -/
def headNotBinop (toks : List (Nat × String)) : Bool :=
  match toks with
  | [] => false
  | (_, t) :: _ => !isBinop t

/-- Head of a token list is a negation token. -/
def headIsTilde : List (Nat × String) → Bool
  | [] => false
  | (_, t) :: _ => t == "~"

/-- Does the token sequence contain two adjacent negation tokens?  (On such
input the precedence loop pops the pending negation prematurely.) -/
def hasTildeTilde : List (Nat × String) → Bool
  | [] => false
  | (_, t) :: rest => (t == "~" && headIsTilde rest) || hasTildeTilde rest

/-- Token may legally follow the given previous token for the purposes of
well-formed output: never a binary operator after the initial sentinel, and
never a negation directly after a negation. -/
def goodRun : String → List (Nat × String) → Prop
  | _, [] => True
  | prev, (_, t) :: rest =>
    (prev = "~" → t ≠ "~") ∧ (prev = "\x00" → isBinop t = false) ∧ goodRun t rest

/-- Tokens the scanner can produce. -/
def scanToks : List String := ["=>", "v", "^", "~", "a", "b", "c", "d", "(", ")"]

/-- Completed-expression indicator of a previous token: 1 after an atomic or
a closing parenthesis, otherwise 0. -/
def eTok (t : String) : Nat := if afterExp t then 1 else 0

/-- Invariant of the parser loop tying the replay count of the emitted
output to the pending stack: the output replays without underflow to the
completed-expression indicator plus the number of pending binary operators;
stack entries are operators or opening parentheses; a pending negation on
top of the stack only ever coexists with a previous token that is a
negation or ends an expression; after an opening parenthesis that
parenthesis is still pending; before any token the state is initial; and
the previous token is a scanner token or the initial sentinel. -/
def ParseInv (s : PState) : Prop :=
  replay s.out = some (eTok s.lastTok + nbL s.stack) ∧
  (∀ pt ∈ s.stack, pt.2 ∈ ops ∨ pt.2 = "(") ∧
  (∀ p : Nat, s.stack.head? = some (p, "~") → s.lastTok = "~" ∨ eTok s.lastTok = 1) ∧
  (s.lastTok = "(" → "(" ∈ s.stack.map Prod.snd) ∧
  (s.lastTok = "\x00" → s.stack = [] ∧ s.out = []) ∧
  (s.lastTok ∈ scanToks ∨ s.lastTok = "\x00")

/-- Characters from which compiled Python expressions are built: the atomic
letters, parentheses, the space, and the letters of `not`, `and`, `or`. -/
def allowedChar (c : Char) : Bool :=
  c = 'a' || c = 'b' || c = 'c' || c = 'd' || c = '(' || c = ')' || c = ' ' ||
  c = 'n' || c = 'o' || c = 't' || c = 'r'

/-- All characters of a string lie in the compiled-expression alphabet. -/
def allowedStr (s : String) : Bool := s.data.all allowedChar

/-- Shape invariant for the parser's emitted output and pending stack:
output entries are atomics or operators, stack entries are operators or
opening parentheses. -/
def OutStackInv (s : PState) : Prop :=
  (∀ pt ∈ s.out, isAtomicTok pt.2 = true ∨ pt.2 ∈ ops) ∧
  (∀ pt ∈ s.stack, pt.2 ∈ ops ∨ pt.2 = "(")

/-- The per-atomic flag update applied for a model assignment: OR the
`PROVEN` bit into an atomic true under the assignment, else the
`DISPROVEN` bit. -/
def updAll (acc : Char → Nat) (v : Nat) : Char → Nat := fun x =>
  if x ∈ atomics then acc x ||| (if assignEnv v x then Implied_PROVEN else Implied_DISPROVEN)
  else acc x

/-- The flag bit contributed for one atomic by one model assignment. -/
def contribVal (v : Nat) (x : Char) : Nat :=
  if assignEnv v x then Implied_PROVEN else Implied_DISPROVEN

theorem valuate_single (x : Char) (hx : x ∈ atomics) (v : Nat) :
    valuate (String.singleton x) v = some (assignEnv v x) := by
  fin_cases hx <;> rfl

theorem lor_lt4 {a b : Nat} (ha : a < 4) (hb : b < 4) : a ||| b < 4 := by
  interval_cases a <;> interval_cases b <;> decide

theorem ostep_model (ps : List String) (acc : Char → Nat) (v : Nat)
    (h : premisesHold ps v = some true) :
    ostep ps acc v = some (updAll acc v) := by
  unfold ostep
  rw [h]
  simp only [if_pos rfl, atomics, List.foldlM_cons, List.foldlM_nil,
    valuate_single 'a' (by decide), valuate_single 'b' (by decide),
    valuate_single 'c' (by decide), valuate_single 'd' (by decide)]
  simp only [if_true, Option.bind_eq_bind, Option.some_bind]
  refine congrArg some (funext fun x => ?_)
  by_cases ha : x = 'a'
  · subst ha; simp [updAll, atomics]
  · by_cases hb : x = 'b'
    · subst hb; simp [updAll, atomics]
    · by_cases hc : x = 'c'
      · subst hc; simp [updAll, atomics]
      · by_cases hd : x = 'd'
        · subst hd; simp [updAll, atomics]
        · simp [updAll, atomics, ha, hb, hc, hd]

theorem ostep_skip (ps : List String) (acc : Char → Nat) (v : Nat)
    (h : premisesHold ps v = some false) : ostep ps acc v = some acc := by
  unfold ostep; rw [h]; simp

theorem ostep_err (ps : List String) (acc : Char → Nat) (v : Nat)
    (h : premisesHold ps v = none) : ostep ps acc v = none := by
  unfold ostep; rw [h]

theorem ia_fold_bit (ps : List String) :
    ∀ (L : List Nat) (acc f : Char → Nat), L.foldlM (ostep ps) acc = some f →
      ∀ x ∈ atomics, ∀ i : Nat,
        ((f x).testBit i = true ↔
          ((acc x).testBit i = true ∨ ∃ v ∈ L, isModel ps v ∧ (contribVal v x).testBit i = true)) := by
  intro L
  induction L with
  | nil =>
    intro acc f hf x hx i
    simp only [List.foldlM_nil] at hf
    cases hf
    simp
  | cons v L ih =>
    intro acc f hf x hx i
    simp only [List.foldlM_cons] at hf
    cases hm : premisesHold ps v with
    | none =>
      rw [ostep_err ps acc v hm] at hf
      simp at hf
    | some b =>
      cases b with
      | false =>
        rw [ostep_skip ps acc v hm] at hf
        simp only [Option.bind_eq_bind, Option.some_bind] at hf
        have h2 := ih acc f hf x hx i
        rw [h2]
        constructor
        · rintro (h | ⟨w, hw, hmod, hbit⟩)
          · exact Or.inl h
          · exact Or.inr ⟨w, List.mem_cons_of_mem _ hw, hmod, hbit⟩
        · rintro (h | ⟨w, hw, hmod, hbit⟩)
          · exact Or.inl h
          · rcases List.mem_cons.mp hw with rfl | hw'
            · exact absurd hmod (by simp [isModel, hm])
            · exact Or.inr ⟨w, hw', hmod, hbit⟩
      | true =>
        rw [ostep_model ps acc v hm] at hf
        simp only [Option.bind_eq_bind, Option.some_bind] at hf
        have h2 := ih _ f hf x hx i
        rw [h2]
        have hupd : updAll acc v x = acc x ||| contribVal v x := by
          simp [updAll, contribVal, hx]
        rw [hupd, Nat.testBit_lor]
        constructor
        · rintro (h | ⟨w, hw, hmod, hbit⟩)
          · rcases Bool.or_eq_true_iff.mp h with h | h
            · exact Or.inl h
            · exact Or.inr ⟨v, List.mem_cons_self v L, by simp [isModel, hm], h⟩
          · exact Or.inr ⟨w, List.mem_cons_of_mem _ hw, hmod, hbit⟩
        · rintro (h | ⟨w, hw, hmod, hbit⟩)
          · exact Or.inl (Bool.or_eq_true_iff.mpr (Or.inl h))
          · rcases List.mem_cons.mp hw with rfl | hw'
            · exact Or.inl (Bool.or_eq_true_iff.mpr (Or.inr hbit))
            · exact Or.inr ⟨w, hw', hmod, hbit⟩

theorem ia_fold_lt4 (ps : List String) :
    ∀ (L : List Nat) (acc f : Char → Nat), L.foldlM (ostep ps) acc = some f →
      (∀ x, acc x < 4) → ∀ x, f x < 4 := by
  intro L
  induction L with
  | nil =>
    intro acc f hf hacc x
    simp only [List.foldlM_nil] at hf
    cases hf
    exact hacc x
  | cons v L ih =>
    intro acc f hf hacc x
    simp only [List.foldlM_cons] at hf
    cases hm : premisesHold ps v with
    | none => rw [ostep_err ps acc v hm] at hf; simp at hf
    | some b =>
      cases b with
      | false =>
        rw [ostep_skip ps acc v hm] at hf
        simp only [Option.bind_eq_bind, Option.some_bind] at hf
        exact ih acc f hf hacc x
      | true =>
        rw [ostep_model ps acc v hm] at hf
        simp only [Option.bind_eq_bind, Option.some_bind] at hf
        refine ih _ f hf (fun y => ?_) x
        unfold updAll
        split
        · have h2 : (if assignEnv v y then Implied_PROVEN else Implied_DISPROVEN) < 4 := by
            split <;> decide
          exact lor_lt4 (hacc y) h2
        · exact hacc y

theorem contrib_bit0 (v : Nat) (x : Char) : (contribVal v x).testBit 0 = assignEnv v x := by
  cases h : assignEnv v x <;> simp [contribVal, h, Implied_PROVEN, Implied_DISPROVEN]

theorem contrib_bit1 (v : Nat) (x : Char) : (contribVal v x).testBit 1 = !assignEnv v x := by
  cases h : assignEnv v x <;> simp [contribVal, h, Implied_PROVEN, Implied_DISPROVEN] <;> decide

theorem eq_iffs_lt4 {n : Nat} (h : n < 4) :
    (n = 0 ↔ (n.testBit 0 = false ∧ n.testBit 1 = false)) ∧
    (n = 1 ↔ (n.testBit 0 = true ∧ n.testBit 1 = false)) ∧
    (n = 2 ↔ (n.testBit 0 = false ∧ n.testBit 1 = true)) ∧
    (n = 3 ↔ (n.testBit 0 = true ∧ n.testBit 1 = true)) := by
  interval_cases n <;> refine ⟨by decide, by decide, by decide, by decide⟩

theorem ia_verdict_iffs (ps : List String) (f : Char → Nat)
    (hf : implied_atomics ps = some f) (x : Char) (hx : x ∈ atomics) :
    (f x = Implied_VACUOUS ↔ ¬ ∃ v, v < 16 ∧ isModel ps v) ∧
    (f x = Implied_PROVEN ↔ ((∃ v, v < 16 ∧ isModel ps v) ∧
      ∀ v, v < 16 → isModel ps v → valuate (String.singleton x) v = some true)) ∧
    (f x = Implied_DISPROVEN ↔ ((∃ v, v < 16 ∧ isModel ps v) ∧
      ∀ v, v < 16 → isModel ps v → valuate (String.singleton x) v = some false)) ∧
    (f x = Implied_UNPROVEN ↔
      ((∃ v, v < 16 ∧ isModel ps v ∧ valuate (String.singleton x) v = some true) ∧
       (∃ v, v < 16 ∧ isModel ps v ∧ valuate (String.singleton x) v = some false))) := by
  have hf' : (List.range 16).foldlM (ostep ps) (fun _ => Implied_VACUOUS) = some f := hf
  have hbit := ia_fold_bit ps (List.range 16) _ f hf' x hx
  have hlt : f x < 4 := ia_fold_lt4 ps (List.range 16) _ f hf' (fun _ => by decide) x
  have hval : ∀ v : Nat, valuate (String.singleton x) v = some (assignEnv v x) :=
    valuate_single x hx
  have hP : (f x).testBit 0 = true ↔ ∃ v, v < 16 ∧ isModel ps v ∧ assignEnv v x = true := by
    rw [hbit 0]
    simp only [Implied_VACUOUS, Nat.zero_testBit, Bool.false_eq_true, false_or, List.mem_range,
      contrib_bit0]
  have hQ : (f x).testBit 1 = true ↔ ∃ v, v < 16 ∧ isModel ps v ∧ assignEnv v x = false := by
    rw [hbit 1]
    simp only [Implied_VACUOUS, Nat.zero_testBit, Bool.false_eq_true, false_or, List.mem_range,
      contrib_bit1, Bool.not_eq_true']
  obtain ⟨h0, h1, h2, h3⟩ := eq_iffs_lt4 hlt
  have hPf : (f x).testBit 0 = false ↔ ¬ ∃ v, v < 16 ∧ isModel ps v ∧ assignEnv v x = true := by
    rw [← hP]; cases (f x).testBit 0 <;> simp
  have hQf : (f x).testBit 1 = false ↔ ¬ ∃ v, v < 16 ∧ isModel ps v ∧ assignEnv v x = false := by
    rw [← hQ]; cases (f x).testBit 1 <;> simp
  refine ⟨?_, ?_, ?_, ?_⟩
  · show f x = 0 ↔ _
    rw [h0, hPf, hQf]
    constructor
    · rintro ⟨hp, hq⟩ ⟨v, hv, hm⟩
      cases hax : assignEnv v x
      · exact hq ⟨v, hv, hm, hax⟩
      · exact hp ⟨v, hv, hm, hax⟩
    · intro hno
      exact ⟨fun ⟨v, hv, hm, _⟩ => hno ⟨v, hv, hm⟩, fun ⟨v, hv, hm, _⟩ => hno ⟨v, hv, hm⟩⟩
  · show f x = 1 ↔ _
    rw [h1, hP, hQf]
    constructor
    · rintro ⟨⟨v, hv, hm, hax⟩, hq⟩
      refine ⟨⟨v, hv, hm⟩, fun w hw hmw => ?_⟩
      rw [hval w]
      cases haw : assignEnv w x
      · exact absurd ⟨w, hw, hmw, haw⟩ hq
      · rfl
    · rintro ⟨⟨v, hv, hm⟩, hall⟩
      have hax : assignEnv v x = true := by
        have := hall v hv hm; rw [hval v] at this; exact Option.some_inj.mp this
      refine ⟨⟨v, hv, hm, hax⟩, fun ⟨w, hw, hmw, haw⟩ => ?_⟩
      have := hall w hw hmw; rw [hval w] at this
      rw [Option.some_inj.mp this] at haw; cases haw
  · show f x = 2 ↔ _
    rw [h2, hPf, hQ]
    constructor
    · rintro ⟨hp, ⟨v, hv, hm, hax⟩⟩
      refine ⟨⟨v, hv, hm⟩, fun w hw hmw => ?_⟩
      rw [hval w]
      cases haw : assignEnv w x
      · rfl
      · exact absurd ⟨w, hw, hmw, haw⟩ hp
    · rintro ⟨⟨v, hv, hm⟩, hall⟩
      have hax : assignEnv v x = false := by
        have := hall v hv hm; rw [hval v] at this; exact Option.some_inj.mp this
      refine ⟨fun ⟨w, hw, hmw, haw⟩ => ?_, ⟨v, hv, hm, hax⟩⟩
      have := hall w hw hmw; rw [hval w] at this
      rw [Option.some_inj.mp this] at haw; cases haw
  · show f x = 3 ↔ _
    rw [h3, hP, hQ]
    constructor
    · rintro ⟨⟨v, hv, hm, hax⟩, ⟨w, hw, hmw, haw⟩⟩
      exact ⟨⟨v, hv, hm, by rw [hval v, hax]⟩, ⟨w, hw, hmw, by rw [hval w, haw]⟩⟩
    · rintro ⟨⟨v, hv, hm, hax⟩, ⟨w, hw, hmw, haw⟩⟩
      rw [hval v] at hax; rw [hval w] at haw
      exact ⟨⟨v, hv, hm, Option.some_inj.mp hax⟩, ⟨w, hw, hmw, Option.some_inj.mp haw⟩⟩

/-- C1: for a non-empty premise list on which the engine returns a verdict
map, each atomic is `Vacuous` exactly when no assignment below 16 satisfies
all premises; `ProvenTrue` exactly when a satisfying assignment exists and
the atomic evaluates true under every satisfying assignment; `ProvenFalse`
exactly when a satisfying assignment exists and the atomic evaluates false
under every satisfying assignment; and `Unproven` exactly when the atomic is
true under some satisfying assignment and false under another. -/
theorem implied_atomics_characterization (ps : List String) (f : Char → Nat)
    (_hne : ps ≠ []) (hf : implied_atomics ps = some f) (x : Char) (hx : x ∈ atomics) :
    (f x = Implied_VACUOUS ↔ ¬ ∃ v, v < 16 ∧ isModel ps v) ∧
    (f x = Implied_PROVEN ↔ ((∃ v, v < 16 ∧ isModel ps v) ∧
      ∀ v, v < 16 → isModel ps v → valuate (String.singleton x) v = some true)) ∧
    (f x = Implied_DISPROVEN ↔ ((∃ v, v < 16 ∧ isModel ps v) ∧
      ∀ v, v < 16 → isModel ps v → valuate (String.singleton x) v = some false)) ∧
    (f x = Implied_UNPROVEN ↔
      ((∃ v, v < 16 ∧ isModel ps v ∧ valuate (String.singleton x) v = some true) ∧
       (∃ v, v < 16 ∧ isModel ps v ∧ valuate (String.singleton x) v = some false))) :=
  ia_verdict_iffs ps f hf x hx

/-- Witness for C1 at the concrete premise list `["a"]` and atomic `a`. -/
theorem implied_atomics_characterization_witness :
    (["a"] : List String) ≠ [] ∧ 'a' ∈ atomics ∧
    ∃ f, implied_atomics ["a"] = some f ∧
      ((f 'a' = Implied_VACUOUS ↔ ¬ ∃ v, v < 16 ∧ isModel ["a"] v) ∧
       (f 'a' = Implied_PROVEN ↔ ((∃ v, v < 16 ∧ isModel ["a"] v) ∧
         ∀ v, v < 16 → isModel ["a"] v → valuate (String.singleton 'a') v = some true)) ∧
       (f 'a' = Implied_DISPROVEN ↔ ((∃ v, v < 16 ∧ isModel ["a"] v) ∧
         ∀ v, v < 16 → isModel ["a"] v → valuate (String.singleton 'a') v = some false)) ∧
       (f 'a' = Implied_UNPROVEN ↔
         ((∃ v, v < 16 ∧ isModel ["a"] v ∧ valuate (String.singleton 'a') v = some true) ∧
          (∃ v, v < 16 ∧ isModel ["a"] v ∧ valuate (String.singleton 'a') v = some false)))) :=
  ⟨by decide, by decide, _, rfl,
    implied_atomics_characterization ["a"] _ (by decide) rfl 'a' (by decide)⟩

/-- C9: a returned verdict map is `Vacuous` on all four atomics or on none,
and any satisfying assignment below 16 forces every atomic away from
`Vacuous`. -/
theorem vacuous_all_or_none (ps : List String) (f : Char → Nat)
    (hf : implied_atomics ps = some f) :
    ((∀ x ∈ atomics, f x = Implied_VACUOUS) ∨ (∀ x ∈ atomics, f x ≠ Implied_VACUOUS)) ∧
    (∀ v, v < 16 → isModel ps v → ∀ x ∈ atomics, f x ≠ Implied_VACUOUS) := by
  have hiff : ∀ x ∈ atomics, (f x = Implied_VACUOUS ↔ ¬ ∃ v, v < 16 ∧ isModel ps v) :=
    fun x hx => (ia_verdict_iffs ps f hf x hx).1
  constructor
  · by_cases hm : ∃ v, v < 16 ∧ isModel ps v
    · exact Or.inr (fun x hx h0 => (hiff x hx).mp h0 hm)
    · exact Or.inl (fun x hx => (hiff x hx).mpr hm)
  · exact fun v hv hmod x hx h0 => (hiff x hx).mp h0 ⟨v, hv, hmod⟩

/-- Witness for C9 at the concrete premise list `["a"]`. -/
theorem vacuous_all_or_none_witness :
    ∃ f, implied_atomics ["a"] = some f ∧
      (((∀ x ∈ atomics, f x = Implied_VACUOUS) ∨ (∀ x ∈ atomics, f x ≠ Implied_VACUOUS)) ∧
       (∀ v, v < 16 → isModel ["a"] v → ∀ x ∈ atomics, f x ≠ Implied_VACUOUS)) :=
  ⟨_, rfl, vacuous_all_or_none ["a"] _ rfl⟩

/-- C3 (code bug): the formula `~~a` is not accepted; the parser emits the
ill-formed postfix `~ a ~` (the precedence loop pops the pending negation on
seeing the second one), and compilation exits with a missing-operand error
for `~` at position 0 instead of evaluating like `a`. -/
theorem double_negation_rejected :
    parse_rpn "~~a" = .ok [(0, "~"), (2, "a"), (1, "~")] ∧
    compile_to_python "~~a" = .error (.missingOperand 0 "~") :=
  ⟨rfl, rfl⟩

/-- C4: compiling the premises `a` and `a => b` and running the entailment
engine yields ProvenTrue for `a` and `b` and Unproven for `c` and `d`. -/
theorem entail_modus_ponens_example :
    (compile_to_python "a").toOption.bind (fun p1 =>
      (compile_to_python "a => b").toOption.bind (fun p2 =>
        (implied_atomics [p1, p2]).map (fun f => (f 'a', f 'b', f 'c', f 'd'))))
      = some (Implied_PROVEN, Implied_PROVEN, Implied_UNPROVEN, Implied_UNPROVEN) :=
  rfl

/-- C5 counterexample: compiling `()` does fail with the empty-parentheses
error, but the error carries position 1 — the closing parenthesis — not
position 0 of the opening parenthesis as claimed. -/
theorem empty_parens_position_cex :
    compile_to_python "()" = .error (.emptyParentheses 1) ∧
    Err.emptyParentheses 1 ≠ Err.emptyParentheses 0 :=
  ⟨rfl, by decide⟩

/-- C5 (amended): compiling `()` fails with the empty-parentheses error
carried at the position of the closing parenthesis, position 1. -/
theorem empty_parens_position :
    parse_rpn "()" = .error (.emptyParentheses 1) ∧
    compile_to_python "()" = .error (.emptyParentheses 1) :=
  ⟨rfl, rfl⟩

/-- C6: equal-precedence binary operators associate left; under every
assignment below 16 the compilations of `a => b => d` and `(a => b) => d`
evaluate to the same defined boolean. -/
theorem implies_left_assoc :
    ∀ v, v < 16 →
      ((compile_to_python "a => b => d").toOption.bind (fun p => valuate p v)
          = (compile_to_python "(a => b) => d").toOption.bind (fun p => valuate p v)
        ∧ ((compile_to_python "a => b => d").toOption.bind (fun p => valuate p v)).isSome
            = true) := by
  decide

/-- Witness for C6 at the concrete assignment 5. -/
theorem implies_left_assoc_witness :
    5 < 16 ∧
      ((compile_to_python "a => b => d").toOption.bind (fun p => valuate p 5)
          = (compile_to_python "(a => b) => d").toOption.bind (fun p => valuate p 5)
        ∧ ((compile_to_python "a => b => d").toOption.bind (fun p => valuate p 5)).isSome
            = true) :=
  ⟨by decide, implies_left_assoc 5 (by decide)⟩

/-- C8: on the empty premise list every assignment below 16 satisfies the
(empty) conjunction of premises, and the engine reports Unproven for all
four atomics. -/
theorem empty_premises_unproven :
    ((List.range 16).all fun v => premisesHold [] v == some true) = true ∧
    (implied_atomics []).map (fun f => (f 'a', f 'b', f 'c', f 'd'))
      = some (Implied_UNPROVEN, Implied_UNPROVEN, Implied_UNPROVEN, Implied_UNPROVEN) :=
  ⟨by decide, rfl⟩

/-- C2 counterexample: on `^ a` the parser completes without error (the
leading binary operator is never checked against the initial sentinel
previous-token), yet its postfix output `a ^` leaves the binary operator one
operand short, so the compiler's defensive missing-operand branch fires. -/
theorem parser_postfix_wellformed_cex :
    parse_rpn "^ a" = .ok [(2, "a"), (0, "^")] ∧
    compile_to_python "^ a" = .error (.missingOperand 0 "^") :=
  ⟨rfl, rfl⟩

/-- C7 counterexample: `b b ^` ends in the operator `^`, but compilation
fails with a missing-operator error at position 2 (the second `b`), not with
a missing-operand error naming the final `^`; and `^ a ^` passes every
per-token check yet fails with a missing-operand error at position 0 (the
compile loop underflows on the pending operator the precedence loop emits),
not at the final operator's position 4. -/
theorem trailing_operator_error_cex :
    (compile_to_python "b b ^" = .error (.missingOperator 2 "b" "b") ∧
      ∀ p : Int, compile_to_python "b b ^" ≠ .error (.missingOperand p "^")) ∧
    (compile_to_python "^ a ^" = .error (.missingOperand 0 "^") ∧ (0 : Int) ≠ 4) := by
  refine ⟨⟨rfl, fun p h => ?_⟩, rfl, by decide⟩
  rw [show compile_to_python "b b ^" = .error (.missingOperator 2 "b" "b") from rfl] at h
  simp at h

theorem except_ok_bind {ε α β : Type} (a : α) (f : α → Except ε β) :
    (Except.ok a >>= f) = f a := rfl

theorem except_error_bind {ε α β : Type} (e : ε) (f : α → Except ε β) :
    ((Except.error e : Except ε α) >>= f) = Except.error e := rfl

theorem pstep_last {s : PState} {pos : Nat} {token : String} {s' : PState}
    (h : pstep s (pos, token) = .ok s') : s'.lastPos = (pos : Int) ∧ s'.lastTok = token := by
  unfold pstep at h
  repeat' split at h
  all_goals first
    | (cases h; simp_all)
    | simp at h

theorem foldlM_pstep_last :
    ∀ (toks : List (Nat × String)) (s s' : PState), toks.foldlM pstep s = .ok s' →
      (toks = [] ∧ s' = s) ∨
      (∃ pt, toks.getLast? = some pt ∧ s'.lastPos = (pt.1 : Int) ∧ s'.lastTok = pt.2) := by
  intro toks
  induction toks with
  | nil =>
    intro s s' h
    simp only [List.foldlM_nil] at h
    cases h
    exact Or.inl ⟨rfl, rfl⟩
  | cons pt rest ih =>
    intro s s' h
    simp only [List.foldlM_cons] at h
    cases hstep : pstep s pt with
    | error e => rw [hstep, except_error_bind] at h; exact absurd h (by simp)
    | ok s1 =>
      rw [hstep, except_ok_bind] at h
      rcases ih s1 s' h with ⟨hrest, rfl⟩ | ⟨pt', hpt', hpos, htok⟩
      · subst hrest
        obtain ⟨pos, token⟩ := pt
        exact Or.inr ⟨(pos, token), rfl, pstep_last hstep⟩
      · have hne : rest ≠ [] := by intro hr; subst hr; simp at hpt'
        obtain ⟨r, rs, rfl⟩ := List.exists_cons_of_ne_nil hne
        exact Or.inr ⟨pt', by rw [List.getLast?_cons_cons]; exact hpt', hpos, htok⟩

theorem singleton_mem_scanToks {c : Char} (h : tokChar c = true) :
    String.singleton c ∈ scanToks := by
  have hmem : c ∈ ['v', '^', '~', 'a', 'b', 'c', 'd', '(', ')'] := by
    revert h
    unfold tokChar
    simp [atomics]
    tauto
  fin_cases hmem <;> decide

theorem scanAux_toks :
    ∀ (pos : Nat) (cs : List Char) (toks : List (Nat × String)),
      scanAux pos cs = .ok toks → ∀ pt ∈ toks, pt.2 ∈ scanToks := by
  intro pos cs
  induction pos, cs using scanAux.induct with
  | case1 x =>
    intro toks h
    simp only [scanAux] at h
    cases h
    intro pt hpt
    simp at hpt
  | case2 pos c htok =>
    intro toks h
    simp only [scanAux, if_pos htok] at h
    cases h
    intro pt hpt
    rcases List.mem_singleton.mp hpt with rfl
    exact singleton_mem_scanToks htok
  | case3 pos c htok hws =>
    intro toks h
    simp only [scanAux, if_neg htok, if_pos hws] at h
    cases h
    intro pt hpt
    simp at hpt
  | case4 pos c htok hws =>
    intro toks h
    simp only [scanAux, if_neg htok, if_neg hws] at h
    simp at h
  | case5 pos c c2 rest hc e herr ih =>
    intro toks h
    simp only [scanAux, if_pos hc, herr] at h
    exact absurd h (by simp)
  | case6 pos c c2 rest hc toks' hok ih =>
    intro toks h
    simp only [scanAux, if_pos hc, hok] at h
    cases h
    intro pt hpt
    rcases List.mem_cons.mp hpt with rfl | hm
    · simp [scanToks]
    · exact ih toks' hok pt hm
  | case7 pos c c2 rest hc htok e herr ih =>
    intro toks h
    simp only [scanAux, if_neg hc, if_pos htok, herr] at h
    exact absurd h (by simp)
  | case8 pos c c2 rest hc htok toks' hok ih =>
    intro toks h
    simp only [scanAux, if_neg hc, if_pos htok, hok] at h
    cases h
    intro pt hpt
    rcases List.mem_cons.mp hpt with rfl | hm
    · exact singleton_mem_scanToks htok
    · exact ih toks' hok pt hm
  | case9 pos c c2 rest hc htok hws ih =>
    intro toks h
    simp only [scanAux, if_neg hc, if_neg htok, if_pos hws] at h
    exact ih toks h
  | case10 pos c c2 rest hc htok hws =>
    intro toks h
    simp only [scanAux, if_neg hc, if_neg htok, if_neg hws] at h
    exact absurd h (by simp)

theorem scanner_toks {e : String} {toks : List (Nat × String)}
    (h : scanner e = .ok toks) : ∀ pt ∈ toks, pt.2 ∈ scanToks := by
  unfold scanner at h
  split at h
  · simp at h
  · exact scanAux_toks 0 e.data toks h

theorem popToLParen_spec :
    ∀ (st popped rest : List (Nat × String)), popToLParen st = some (popped, rest) →
      (∃ q, st = popped ++ (q, "(") :: rest) ∧ ∀ pt ∈ popped, pt.2 ≠ "(" := by
  intro st
  induction st with
  | nil => intro popped rest h; simp [popToLParen] at h
  | cons pt st ih =>
    intro popped rest h
    obtain ⟨p, t⟩ := pt
    unfold popToLParen at h
    split at h
    · rename_i ht
      cases h
      exact ⟨⟨p, by simp [ht]⟩, by simp⟩
    · rename_i ht
      cases hrec : popToLParen st with
      | none => rw [hrec] at h; simp at h
      | some pr =>
        obtain ⟨popped2, rem2⟩ := pr
        rw [hrec] at h
        cases h
        obtain ⟨⟨q, hq⟩, hall⟩ := ih popped2 rest hrec
        refine ⟨⟨q, by rw [hq]; rfl⟩, ?_⟩
        intro pt2 hpt2
        rcases List.mem_cons.mp hpt2 with rfl | hm
        · exact ht
        · exact hall pt2 hm

theorem popGePrec_spec :
    ∀ (tp : Nat) (st : List (Nat × String)),
      (popGePrec tp st).1 ++ (popGePrec tp st).2 = st ∧
      (∀ pt ∈ (popGePrec tp st).1, pt.2 ∈ ops ∧ tp ≤ precedence pt.2) := by
  intro tp st
  induction st with
  | nil => simp [popGePrec]
  | cons pt st ih =>
    obtain ⟨p, t⟩ := pt
    unfold popGePrec
    split
    · rename_i hcond
      obtain ⟨hfront, hall⟩ := ih
      constructor
      · simp only [List.cons_append]
        rw [show (popGePrec tp st).1 ++ (popGePrec tp st).2 = st from hfront]
      · intro pt2 hpt2
        rcases List.mem_cons.mp hpt2 with rfl | hm
        · exact hcond
        · exact hall pt2 hm
    · exact ⟨rfl, by simp⟩

theorem popGePrec_stop :
    ∀ (tp : Nat) (p : Nat) (t : String) (st : List (Nat × String)),
      ¬(t ∈ ops ∧ tp ≤ precedence t) → popGePrec tp ((p, t) :: st) = ([], (p, t) :: st) := by
  intro tp p t st hcond
  unfold popGePrec
  rw [if_neg hcond]

theorem popGePrec_sub {tp : Nat} {st : List (Nat × String)} {pt : Nat × String}
    (h : pt ∈ (popGePrec tp st).2) : pt ∈ st := by
  have hfront := (popGePrec_spec tp st).1
  rw [← hfront]
  exact List.mem_append_right _ h

theorem scanTok_op {t : String} (h : t ∈ scanToks) (h1 : ¬ isAtomicTok t = true)
    (h2 : t ≠ "(") (h3 : t ≠ ")") : t ∈ ops := by
  fin_cases h <;>
    first
      | decide
      | (exact absurd (by decide) h1)
      | (exact absurd rfl h2)
      | (exact absurd rfl h3)

theorem not_after_exp_ok {pos : Nat} {token last : String} {u : Unit}
    (h : not_after_exp pos token last = .ok u) : afterExp last = false := by
  unfold not_after_exp at h
  split at h
  · exact absurd h (by simp)
  · simp_all

theorem not_after_op_ok {lp : Int} {last : String} {u : Unit}
    (h : not_after_op lp last = .ok u) : last ∉ ops := by
  unfold not_after_op at h
  split at h
  · exact absurd h (by simp)
  · assumption

theorem pstep_ok_cases {s : PState} {pos : Nat} {token : String} {s' : PState}
    (h : pstep s (pos, token) = .ok s') :
    (isAtomicTok token = true ∧ afterExp s.lastTok = false ∧
      s' = ⟨s.stack, (pos : Int), token, s.out ++ [(pos, token)]⟩) ∨
    (token = "(" ∧ afterExp s.lastTok = false ∧
      s' = ⟨(pos, token) :: s.stack, (pos : Int), token, s.out⟩) ∨
    (token = ")" ∧ ¬ s.lastTok = "(" ∧ s.lastTok ∉ ops ∧
      ∃ pr, popToLParen s.stack = some pr ∧
        s' = ⟨pr.2, (pos : Int), token, s.out ++ pr.1⟩) ∨
    (¬ isAtomicTok token = true ∧ ¬ token = "(" ∧ ¬ token = ")" ∧
      ((token = "~" ∧ afterExp s.lastTok = false) ∨
       (¬ token = "~" ∧ ¬ s.lastTok = "(" ∧ s.lastTok ∉ ops)) ∧
      s' = ⟨(pos, token) :: (popGePrec (precedence token) s.stack).2, (pos : Int), token,
            s.out ++ (popGePrec (precedence token) s.stack).1⟩) := by
  unfold pstep at h
  dsimp only at h
  repeat' split at h
  all_goals first
    | (cases h
       exact Or.inl ⟨by assumption, not_after_exp_ok (by assumption), rfl⟩)
    | (cases h
       exact Or.inr (Or.inl ⟨by assumption, not_after_exp_ok (by assumption), rfl⟩))
    | (cases h
       exact Or.inr (Or.inr (Or.inl ⟨by assumption, by assumption,
         not_after_op_ok (by assumption), _, by assumption, rfl⟩)))
    | (cases h
       rename_i heqa
       by_cases htil : token = "~"
       · rw [if_pos htil] at heqa
         exact Or.inr (Or.inr (Or.inr ⟨by assumption, by assumption, by assumption,
           Or.inl ⟨htil, not_after_exp_ok heqa⟩, rfl⟩))
       · rw [if_neg htil] at heqa
         split at heqa
         · exact absurd heqa (by simp)
         · exact Or.inr (Or.inr (Or.inr ⟨by assumption, by assumption, by assumption,
             Or.inr ⟨htil, by assumption, not_after_op_ok heqa⟩, rfl⟩)))
    | exact absurd h (by simp)

theorem pstep_outinv {s : PState} {pos : Nat} {token : String} {s' : PState}
    (hinv : OutStackInv s) (htok : token ∈ scanToks)
    (h : pstep s (pos, token) = .ok s') : OutStackInv s' := by
  obtain ⟨hout, hstk⟩ := hinv
  rcases pstep_ok_cases h with
      ⟨hatom, _, rfl⟩ | ⟨hlp, _, rfl⟩ | ⟨hrp, _, _, pr, hpop, rfl⟩ |
      ⟨hnatom, hnlp, hnrp, _, rfl⟩
  · refine ⟨?_, hstk⟩
    intro pt hpt
    rcases List.mem_append.mp hpt with hm | hm
    · exact hout pt hm
    · rcases List.mem_singleton.mp hm with rfl
      exact Or.inl hatom
  · refine ⟨hout, ?_⟩
    intro pt hpt
    rcases List.mem_cons.mp hpt with rfl | hm
    · exact Or.inr hlp
    · exact hstk pt hm
  · obtain ⟨popped, rest⟩ := pr
    obtain ⟨⟨q, hq⟩, hnot⟩ := popToLParen_spec _ popped rest hpop
    refine ⟨?_, ?_⟩
    · intro pt hpt
      rcases List.mem_append.mp hpt with hm | hm
      · exact hout pt hm
      · have hpt2 : pt ∈ s.stack := by rw [hq]; exact List.mem_append_left _ hm
        rcases hstk pt hpt2 with hop | hlp2
        · exact Or.inr hop
        · exact absurd hlp2 (hnot pt hm)
    · intro pt hpt
      have hpt2 : pt ∈ s.stack := by
        rw [hq]
        exact List.mem_append_right _ (List.mem_cons_of_mem _ hpt)
      exact hstk pt hpt2
  · have hop : token ∈ ops := scanTok_op htok hnatom hnlp hnrp
    refine ⟨?_, ?_⟩
    · intro pt hpt
      rcases List.mem_append.mp hpt with hm | hm
      · exact hout pt hm
      · exact Or.inr ((popGePrec_spec (precedence token) s.stack).2 pt hm).1
    · intro pt hpt
      rcases List.mem_cons.mp hpt with rfl | hm
      · exact Or.inl hop
      · exact hstk pt (popGePrec_sub hm)

theorem foldlM_outinv :
    ∀ (toks : List (Nat × String)) (s s' : PState), OutStackInv s →
      (∀ pt ∈ toks, pt.2 ∈ scanToks) → toks.foldlM pstep s = .ok s' → OutStackInv s' := by
  intro toks
  induction toks with
  | nil =>
    intro s s' hinv _ h
    simp only [List.foldlM_nil] at h
    cases h
    exact hinv
  | cons pt rest ih =>
    intro s s' hinv htoks h
    simp only [List.foldlM_cons] at h
    cases hstep : pstep s pt with
    | error e => rw [hstep, except_error_bind] at h; exact absurd h (by simp)
    | ok s1 =>
      rw [hstep, except_ok_bind] at h
      obtain ⟨pos, token⟩ := pt
      have h1 : OutStackInv s1 :=
        pstep_outinv hinv (htoks (pos, token) (List.mem_cons_self _ _)) hstep
      exact ih s1 s' h1 (fun q hq => htoks q (List.mem_cons_of_mem _ hq)) h

theorem drainStack_spec :
    ∀ (st l : List (Nat × String)), drainStack st = .ok l →
      l = st ∧ ∀ pt ∈ st, pt.2 ≠ "(" := by
  intro st
  induction st with
  | nil => intro l h; cases h; exact ⟨rfl, by simp⟩
  | cons pt st ih =>
    intro l h
    obtain ⟨p, t⟩ := pt
    unfold drainStack at h
    split at h
    · exact absurd h (by simp)
    · rename_i ht
      cases hrec : drainStack st with
      | error e => rw [hrec] at h; exact absurd h (by simp)
      | ok l2 =>
        rw [hrec] at h
        cases h
        obtain ⟨rfl, hall⟩ := ih l2 hrec
        refine ⟨rfl, ?_⟩
        intro q hq
        rcases List.mem_cons.mp hq with rfl | hm
        · exact ht
        · exact hall q hm

theorem pfinal_ok_cases {s : PState} {ts : List (Nat × String)} (h : pfinal s = .ok ts) :
    s.lastTok ∉ ops ∧ (∀ pt ∈ s.stack, pt.2 ≠ "(") ∧ ts = s.out ++ s.stack := by
  unfold pfinal at h
  split at h
  · exact absurd h (by simp)
  · rename_i u heq
    split at h
    · exact absurd h (by simp)
    · rename_i l heq2
      cases h
      obtain ⟨rfl, hall⟩ := drainStack_spec _ _ heq2
      exact ⟨not_after_op_ok heq, hall, rfl⟩

theorem parse_rpn_ok_cases {e : String} {ts : List (Nat × String)}
    (h : parse_rpn e = .ok ts) :
    ∃ toks s, scanner (lowerStr e) = .ok toks ∧ toks.foldlM pstep pinit = .ok s ∧
      pfinal s = .ok ts := by
  unfold parse_rpn at h
  cases hscan : scanner (lowerStr e) with
  | error e2 => simp only [hscan] at h; exact absurd h (by simp)
  | ok toks =>
    simp only [hscan] at h
    cases hfold : toks.foldlM pstep pinit with
    | error e2 => simp only [hfold] at h; exact absurd h (by simp)
    | ok s =>
      simp only [hfold] at h
      exact ⟨toks, s, rfl, hfold, h⟩

theorem parse_rpn_out {e : String} {ts : List (Nat × String)}
    (h : parse_rpn e = .ok ts) : ∀ pt ∈ ts, isAtomicTok pt.2 = true ∨ pt.2 ∈ ops := by
  obtain ⟨toks, s, hscan, hfold, hfin⟩ := parse_rpn_ok_cases h
  have hinv : OutStackInv s :=
    foldlM_outinv toks pinit s ⟨by simp [pinit], by simp [pinit]⟩ (scanner_toks hscan) hfold
  obtain ⟨_, hnolp, rfl⟩ := pfinal_ok_cases hfin
  intro pt hpt
  rcases List.mem_append.mp hpt with hm | hm
  · exact hinv.1 pt hm
  · rcases hinv.2 pt hm with hop | hlp
    · exact Or.inr hop
    · exact absurd hlp (hnolp pt hm)

theorem atomicTok_allowed {t : String} (h : isAtomicTok t = true) : allowedStr t = true := by
  unfold isAtomicTok at h
  unfold allowedStr
  cases hd : t.data with
  | nil => rw [hd] at h; simp at h
  | cons c rest =>
    cases rest with
    | nil =>
      rw [hd] at h
      simp only [decide_eq_true_eq] at h
      fin_cases h <;> decide
    | cons c2 r2 => rw [hd] at h; simp at h

theorem allowedStr_append {a b : String} (ha : allowedStr a = true) (hb : allowedStr b = true) :
    allowedStr (a ++ b) = true := by
  unfold allowedStr at *
  rw [String.data_append, List.all_append, ha, hb]
  rfl

theorem cstep_allowed :
    ∀ (st : List String) (pos : Nat) (token : String) (st' : List String),
      (∀ x ∈ st, allowedStr x = true) → (isAtomicTok token = true ∨ token ∈ ops) →
      cstep st (pos, token) = .ok st' → ∀ x ∈ st', allowedStr x = true := by
  intro st pos token st' hst htok h
  unfold cstep at h
  dsimp only at h
  split at h
  · -- operator
    rename_i hop
    cases st with
    | nil => exact absurd h (by simp)
    | cons right rest =>
      have hright : allowedStr right = true := hst right (List.mem_cons_self _ _)
      have hrest : ∀ x ∈ rest, allowedStr x = true :=
        fun x hx => hst x (List.mem_cons_of_mem _ hx)
      dsimp only at h
      by_cases htil : token = "~"
      · rw [if_pos htil] at h
        cases h
        intro x hx
        rcases List.mem_cons.mp hx with rfl | hm
        · exact allowedStr_append (allowedStr_append (by decide) hright) (by decide)
        · exact hrest x hm
      · rw [if_neg htil] at h
        cases rest with
        | nil => exact absurd h (by simp)
        | cons left rest2 =>
          have hleft : allowedStr left = true := hrest left (List.mem_cons_self _ _)
          cases h
          intro x hx
          rcases List.mem_cons.mp hx with rfl | hm
          · refine allowedStr_append (allowedStr_append (allowedStr_append
              (allowedStr_append (allowedStr_append (allowedStr_append
                (allowedStr_append (by decide) ?_) hleft) (by decide)) ?_) (by decide))
              hright) (by decide)
            · split <;> decide
            · split <;> decide
          · exact hrest x (List.mem_cons_of_mem _ hm)
  · -- operand token: it must be atomic
    rename_i hnop
    cases h
    intro x hx
    rcases List.mem_cons.mp hx with rfl | hm
    · rcases htok with hat | hop2
      · exact atomicTok_allowed hat
      · exact absurd hop2 hnop
    · exact hst x hm

theorem foldlM_cstep_allowed :
    ∀ (ts : List (Nat × String)) (st st' : List String),
      (∀ x ∈ st, allowedStr x = true) →
      (∀ pt ∈ ts, isAtomicTok pt.2 = true ∨ pt.2 ∈ ops) →
      ts.foldlM cstep st = .ok st' → ∀ x ∈ st', allowedStr x = true := by
  intro ts
  induction ts with
  | nil =>
    intro st st' hst _ h
    simp only [List.foldlM_nil] at h
    cases h
    exact hst
  | cons pt rest ih =>
    intro st st' hst hts h
    simp only [List.foldlM_cons] at h
    cases hstep : cstep st pt with
    | error e => rw [hstep, except_error_bind] at h; exact absurd h (by simp)
    | ok st1 =>
      rw [hstep, except_ok_bind] at h
      obtain ⟨pos, token⟩ := pt
      have h1 := cstep_allowed st pos token st1 hst (hts (pos, token) (List.mem_cons_self _ _))
        hstep
      exact ih st1 st' h1 (fun q hq => hts q (List.mem_cons_of_mem _ hq)) h

theorem stripParens_allowed {s : String} (h : allowedStr s = true) :
    allowedStr (stripParens s) = true := by
  unfold stripParens
  split
  · unfold allowedStr at h ⊢
    refine List.all_eq_true.mpr ?_
    intro c hc
    have hc2 : c ∈ s.data :=
      List.mem_of_mem_drop (List.mem_of_mem_dropLast hc)
    exact List.all_eq_true.mp h c hc2
  · exact h

theorem replayFrom_append (c : Nat) (xs ys : List (Nat × String)) :
    replayFrom c (xs ++ ys) = (replayFrom c xs).bind (fun c2 => replayFrom c2 ys) := by
  unfold replayFrom
  rw [List.foldlM_append]
  rfl

theorem replayFrom_nil (c : Nat) : replayFrom c [] = some c := rfl

theorem replayFrom_atomic (c : Nat) (p : Nat) (t : String) (h : t ∉ ops) :
    replayFrom c [(p, t)] = some (c + 1) := by
  unfold replayFrom rstep
  simp [h]

theorem nbL_cons (pt : Nat × String) (l : List (Nat × String)) :
    nbL (pt :: l) = nbL l + (if isBinop pt.2 then 1 else 0) := by
  unfold nbL
  rw [List.countP_cons]

theorem nbL_append (a b : List (Nat × String)) : nbL (a ++ b) = nbL a + nbL b := by
  unfold nbL
  exact List.countP_append _ _ _

theorem ops_cases {t : String} (h : t ∈ ops) : t = "~" ∨ isBinop t = true := by
  fin_cases h <;> simp [isBinop]

theorem replayFrom_single (c : Nat) (pt : Nat × String) : replayFrom c [pt] = rstep c pt := by
  unfold replayFrom
  cases hr : rstep c pt <;> simp [List.foldlM_cons, List.foldlM_nil, hr]

theorem replayFrom_ops :
    ∀ (ts : List (Nat × String)), (∀ pt ∈ ts, pt.2 ∈ ops) →
      ∀ c, nbL ts < c → replayFrom c ts = some (c - nbL ts) := by
  intro ts
  induction ts with
  | nil => intro _ c _; simp [replayFrom_nil, nbL]
  | cons pt rest ih =>
    intro hops c hlt
    obtain ⟨p, t⟩ := pt
    have hop : t ∈ ops := hops (p, t) (List.mem_cons_self _ _)
    have hrest : ∀ q ∈ rest, q.2 ∈ ops := fun q hq => hops q (List.mem_cons_of_mem _ hq)
    rw [nbL_cons] at hlt
    have hstep : replayFrom c ((p, t) :: rest)
        = (rstep c (p, t)).bind (fun c2 => replayFrom c2 rest) := by
      rw [show (p, t) :: rest = [(p, t)] ++ rest from rfl, replayFrom_append, replayFrom_single]
    rcases ops_cases hop with rfl | hbin
    · have hlt2 : nbL rest < c := by simpa [isBinop] using hlt
      have hr : rstep c (p, "~") = some c := by
        unfold rstep
        simp only [hop, if_pos]
        rw [if_pos (show 1 ≤ c from by omega)]
      rw [hstep, hr, Option.some_bind, ih hrest c hlt2, nbL_cons]
      simp [isBinop]
    · have hne : t ≠ "~" := by
        intro h2
        rw [h2] at hbin
        simp [isBinop] at hbin
      have hlt2 : nbL rest + 1 < c := by simpa [hbin] using hlt
      have hr : rstep c (p, t) = some (c - 1) := by
        unfold rstep
        simp only [hop, if_pos]
        rw [if_neg (by simpa using hne), if_pos (show 2 ≤ c from by omega)]
      have hih := ih hrest (c - 1) (by omega)
      rw [hstep, hr, Option.some_bind, hih, nbL_cons, hbin]
      have harith : c - 1 - nbL rest = c - (nbL rest + if true then 1 else 0) := by
        simp only [if_true]
        omega
      rw [harith]

theorem isAtomicTok_cases {t : String} (h : isAtomicTok t = true) :
    t = "a" ∨ t = "b" ∨ t = "c" ∨ t = "d" := by
  obtain ⟨data⟩ := t
  unfold isAtomicTok at h
  cases data with
  | nil => simp at h
  | cons c rest =>
    cases rest with
    | nil =>
      simp only [decide_eq_true_eq] at h
      fin_cases h
      · exact Or.inl rfl
      · exact Or.inr (Or.inl rfl)
      · exact Or.inr (Or.inr (Or.inl rfl))
      · exact Or.inr (Or.inr (Or.inr rfl))
    | cons c2 r2 => simp at h

theorem atomic_not_op {t : String} (h : isAtomicTok t = true) : t ∉ ops := by
  rcases isAtomicTok_cases h with rfl | rfl | rfl | rfl <;> decide

theorem eTok_atomic {t : String} (h : isAtomicTok t = true) : eTok t = 1 := by
  unfold eTok afterExp
  rw [h]
  rfl

theorem eTok_zero_of {t : String} (h1 : ¬ isAtomicTok t = true) (h2 : ¬ t = ")") :
    eTok t = 0 := by
  unfold eTok afterExp
  rw [Bool.not_eq_true] at h1
  rw [h1]
  simp [h2]

theorem eTok_one_of {t : String} (h : t ∈ scanToks) (h1 : t ∉ ops) (h2 : ¬ t = "(") :
    eTok t = 1 := by
  fin_cases h <;> first
    | (exact absurd (by decide) h1)
    | (exact absurd rfl h2)
    | decide

theorem scanToks_ne_chr0 {t : String} (h : t ∈ scanToks) : ¬ t = "\x00" := by
  fin_cases h <;> decide

theorem afterExp_eTok {t : String} (h : afterExp t = false) : eTok t = 0 := by
  unfold eTok
  rw [h]
  rfl

theorem pinit_inv : ParseInv pinit := by
  refine ⟨rfl, by simp [pinit], by simp [pinit], by simp [pinit], fun _ => ⟨rfl, rfl⟩,
    Or.inr rfl⟩

theorem pstep_inv {s : PState} {pos : Nat} {token : String} {s' : PState}
    (hinv : ParseInv s) (htok : token ∈ scanToks)
    (hg1 : s.lastTok = "~" → ¬ token = "~")
    (hg2 : s.lastTok = "\x00" → isBinop token = false)
    (h : pstep s (pos, token) = .ok s') : ParseInv s' := by
  obtain ⟨hA, hB, hC, hD, hE, hF⟩ := hinv
  rcases pstep_ok_cases h with
      ⟨hatom, hexp, rfl⟩ | ⟨hlp, hexp, rfl⟩ | ⟨hrp, hnlp, hnop, pr, hpop, rfl⟩ |
      ⟨hnatom, hnlp2, hnrp, hcheck, rfl⟩
  · -- atomic token
    have h0 : eTok s.lastTok = 0 := afterExp_eTok hexp
    rw [h0] at hA
    refine ⟨?_, hB, ?_, ?_, ?_, ?_⟩
    · show replay (s.out ++ [(pos, token)]) = some (eTok token + nbL s.stack)
      unfold replay at hA ⊢
      rw [replayFrom_append, hA, Option.some_bind,
        replayFrom_atomic _ _ _ (atomic_not_op hatom), eTok_atomic hatom]
      congr 1
      omega
    · intro p hp
      exact Or.inr (eTok_atomic hatom)
    · intro hlp2
      rcases isAtomicTok_cases hatom with rfl | rfl | rfl | rfl <;> simp at hlp2
    · intro h00
      rcases isAtomicTok_cases hatom with rfl | rfl | rfl | rfl <;> simp at h00
    · exact Or.inl htok
  · -- opening parenthesis
    have h0 : eTok s.lastTok = 0 := afterExp_eTok hexp
    rw [h0] at hA
    subst hlp
    refine ⟨?_, ?_, ?_, ?_, ?_, Or.inl htok⟩
    · show replay s.out = some (eTok "(" + nbL ((pos, "(") :: s.stack))
      rw [hA, nbL_cons]
      rw [show eTok "(" = 0 from by decide, show isBinop ("(" : String) = false from by decide]
      simp
    · intro pt hpt
      rcases List.mem_cons.mp hpt with rfl | hm
      · exact Or.inr rfl
      · exact hB pt hm
    · intro p hp
      simp at hp
    · intro _
      simp
    · intro h00
      simp at h00
  · -- closing parenthesis
    subst hrp
    obtain ⟨popped, rest⟩ := pr
    obtain ⟨⟨q, hq⟩, hnotlp⟩ := popToLParen_spec _ popped rest hpop
    have hpops : ∀ pt ∈ popped, pt.2 ∈ ops := by
      intro pt hpt
      have hmem : pt ∈ s.stack := by rw [hq]; exact List.mem_append_left _ hpt
      rcases hB pt hmem with hop | hlp2
      · exact hop
      · exact absurd hlp2 (hnotlp pt hpt)
    have h1 : eTok s.lastTok = 1 := by
      rcases hF with hmem | h00
      · exact eTok_one_of hmem hnop hnlp
      · obtain ⟨hstk, _⟩ := hE h00
        rw [hstk] at hpop
        simp [popToLParen] at hpop
    rw [h1] at hA
    have hnb : nbL s.stack = nbL popped + nbL rest := by
      rw [hq, nbL_append, nbL_cons]
      simp [isBinop]
    refine ⟨?_, ?_, ?_, ?_, ?_, Or.inl htok⟩
    · show replay (s.out ++ popped) = some (eTok ")" + nbL rest)
      unfold replay at hA ⊢
      rw [replayFrom_append, hA, Option.some_bind,
        replayFrom_ops popped hpops _ (by omega : nbL popped < 1 + nbL s.stack)]
      have : 1 + nbL s.stack - nbL popped = eTok ")" + nbL rest := by
        rw [hnb]
        simp [eTok, afterExp]
        omega
      rw [this]
    · intro pt hpt
      refine hB pt ?_
      rw [hq]
      exact List.mem_append_right _ (List.mem_cons_of_mem _ hpt)
    · intro p hp
      refine Or.inr (by simp [eTok, afterExp])
    · intro hlp2
      simp at hlp2
    · intro h00
      simp at h00
  · -- operator token
    have hop : token ∈ ops := scanTok_op htok hnatom hnlp2 hnrp
    rcases hcheck with ⟨rfl, hexp⟩ | ⟨hntil, hnlp3, hnop3⟩
    · -- negation: the precedence loop pops nothing
      have h0 : eTok s.lastTok = 0 := afterExp_eTok hexp
      have hpopnil : popGePrec (precedence "~") s.stack = ([], s.stack) := by
        cases hstk : s.stack with
        | nil => rfl
        | cons top rest =>
          obtain ⟨q, t2⟩ := top
          refine popGePrec_stop _ _ _ _ ?_
          rintro ⟨hin, hprec⟩
          rcases ops_cases hin with rfl | hbin2
          · -- a pending negation on top: previous token must be a negation
            have := hC q (by rw [hstk]; rfl)
            rcases this with htil | h1
            · exact hg1 htil rfl
            · rw [h0] at h1; cases h1
          · -- binary operators have precedence below the negation
            have h3 : (t2 = "=>" ∨ t2 = "v") ∨ t2 = "^" := by simpa [isBinop] using hbin2
            rcases h3 with (rfl | rfl) | rfl <;> simp [precedence, ops] at hprec
      rw [hpopnil]
      rw [h0] at hA
      refine ⟨?_, ?_, ?_, ?_, ?_, Or.inl htok⟩
      · show replay (s.out ++ []) = some (eTok "~" + nbL ((pos, "~") :: s.stack))
        rw [List.append_nil, hA, nbL_cons]
        rw [show eTok "~" = 0 from by decide, show isBinop ("~" : String) = false from by decide]
        simp
      · intro pt hpt
        rcases List.mem_cons.mp hpt with rfl | hm
        · exact Or.inl hop
        · exact hB pt hm
      · intro p hp
        exact Or.inl rfl
      · intro hlp2
        simp at hlp2
      · intro h00
        simp at h00
    · -- binary operator
      have hbin : isBinop token = true := by
        rcases ops_cases hop with rfl | hb
        · exact absurd rfl hntil
        · exact hb
      have h1 : eTok s.lastTok = 1 := by
        rcases hF with hmem | h00
        · exact eTok_one_of hmem hnop3 hnlp3
        · rw [hg2 h00] at hbin; cases hbin
      rw [h1] at hA
      have hsplit := popGePrec_spec (precedence token) s.stack
      have hpopops : ∀ pt ∈ (popGePrec (precedence token) s.stack).1, pt.2 ∈ ops :=
        fun pt hpt => (hsplit.2 pt hpt).1
      have hnb : nbL s.stack
          = nbL (popGePrec (precedence token) s.stack).1
            + nbL (popGePrec (precedence token) s.stack).2 := by
        rw [← nbL_append, hsplit.1]
      refine ⟨?_, ?_, ?_, ?_, ?_, Or.inl htok⟩
      · show replay (s.out ++ (popGePrec (precedence token) s.stack).1)
          = some (eTok token + nbL ((pos, token) :: (popGePrec (precedence token) s.stack).2))
        unfold replay at hA ⊢
        rw [replayFrom_append, hA, Option.some_bind,
          replayFrom_ops _ hpopops _
            (by omega : nbL (popGePrec (precedence token) s.stack).1 < 1 + nbL s.stack)]
        rw [nbL_cons, hbin, if_pos rfl, eTok_zero_of hnatom hnrp]
        congr 1
        omega
      · intro pt hpt
        rcases List.mem_cons.mp hpt with rfl | hm
        · exact Or.inl hop
        · exact hB pt (popGePrec_sub hm)
      · intro p hp
        simp only [List.head?_cons, Option.some_inj] at hp
        exact absurd (congrArg Prod.snd hp) hntil
      · intro hlp2
        exact absurd hlp2 hnlp2
      · intro h00
        have h00b : token = "\x00" := h00
        rw [h00b] at hbin
        exact absurd hbin (by decide)

theorem foldlM_pinv :
    ∀ (toks : List (Nat × String)) (s s' : PState), ParseInv s →
      (∀ pt ∈ toks, pt.2 ∈ scanToks) → goodRun s.lastTok toks →
      toks.foldlM pstep s = .ok s' → ParseInv s' := by
  intro toks
  induction toks with
  | nil =>
    intro s s' hinv _ _ h
    simp only [List.foldlM_nil] at h
    cases h
    exact hinv
  | cons pt rest ih =>
    intro s s' hinv htoks hgr h
    simp only [List.foldlM_cons] at h
    cases hstep : pstep s pt with
    | error e => rw [hstep, except_error_bind] at h; exact absurd h (by simp)
    | ok s1 =>
      rw [hstep, except_ok_bind] at h
      obtain ⟨pos, token⟩ := pt
      obtain ⟨hg1, hg2, hg3⟩ := hgr
      have h1 : ParseInv s1 :=
        pstep_inv hinv (htoks (pos, token) (List.mem_cons_self _ _)) hg1 hg2 hstep
      refine ih s1 s' h1 (fun q hq => htoks q (List.mem_cons_of_mem _ hq)) ?_ h
      rw [(pstep_last hstep).2]
      exact hg3

theorem headIsTilde_ne {p : Nat} {t : String} {rest : List (Nat × String)}
    (h : headIsTilde ((p, t) :: rest) = false) : ¬ t = "~" := by
  intro rfl2
  subst rfl2
  simp [headIsTilde] at h

theorem hasTildeTilde_cons {p : Nat} {t : String} {rest : List (Nat × String)}
    (h : hasTildeTilde ((p, t) :: rest) = false) :
    hasTildeTilde rest = false ∧ (t = "~" → headIsTilde rest = false) := by
  unfold hasTildeTilde at h
  simp only [Bool.or_eq_false_iff, Bool.and_eq_false_iff] at h
  obtain ⟨h1, h2⟩ := h
  refine ⟨h2, fun ht => ?_⟩
  rcases h1 with h1 | h1
  · subst ht; simp at h1
  · exact h1

theorem goodRun_of_aux :
    ∀ (toks : List (Nat × String)) (prev : String), prev ∈ scanToks →
      (∀ pt ∈ toks, pt.2 ∈ scanToks) → hasTildeTilde toks = false →
      (prev = "~" → headIsTilde toks = false) → goodRun prev toks := by
  intro toks
  induction toks with
  | nil => intro prev _ _ _ _; trivial
  | cons pt rest ih =>
    intro prev hprev htoks htt hstart
    obtain ⟨p, t⟩ := pt
    obtain ⟨httr, httc⟩ := hasTildeTilde_cons htt
    refine ⟨fun hpr => headIsTilde_ne (hstart hpr), fun h00 => absurd h00 (scanToks_ne_chr0 hprev), ?_⟩
    exact ih t (htoks (p, t) (List.mem_cons_self _ _))
      (fun q hq => htoks q (List.mem_cons_of_mem _ hq)) httr httc

theorem goodRun_of (toks : List (Nat × String))
    (htoks : ∀ pt ∈ toks, pt.2 ∈ scanToks)
    (htt : hasTildeTilde toks = false)
    (hhead : headNotBinop toks = true) : goodRun "\x00" toks := by
  cases toks with
  | nil => trivial
  | cons pt rest =>
    obtain ⟨p, t⟩ := pt
    obtain ⟨httr, httc⟩ := hasTildeTilde_cons htt
    have hnb : isBinop t = false := by
      unfold headNotBinop at hhead
      simpa using hhead
    refine ⟨fun h00 => absurd h00 (by decide), fun _ => hnb, ?_⟩
    exact goodRun_of_aux rest t (htoks (p, t) (List.mem_cons_self _ _))
      (fun q hq => htoks q (List.mem_cons_of_mem _ hq)) httr httc

theorem getLast?_mem {l : List (Nat × String)} {pt : Nat × String}
    (h : l.getLast? = some pt) : pt ∈ l := by
  rcases List.mem_getLast?_eq_getLast (Option.mem_def.mpr h) with ⟨hne, heq⟩
  rw [heq]
  exact List.getLast_mem hne

theorem replayFrom_cons (c : Nat) (pt : Nat × String) (ts : List (Nat × String)) :
    replayFrom c (pt :: ts) = (rstep c pt).bind (fun c2 => replayFrom c2 ts) := by
  rw [show pt :: ts = [pt] ++ ts from rfl, replayFrom_append, replayFrom_single]

theorem foldlM_cstep_of_replay :
    ∀ (ts : List (Nat × String)) (st : List String) (c2 : Nat),
      replayFrom st.length ts = some c2 →
      ∃ st2, ts.foldlM cstep st = .ok st2 ∧ st2.length = c2 := by
  intro ts
  induction ts with
  | nil =>
    intro st c2 h
    rw [replayFrom_nil] at h
    cases h
    exact ⟨st, rfl, rfl⟩
  | cons pt rest ih =>
    intro st c2 h
    obtain ⟨p, t⟩ := pt
    rw [replayFrom_cons] at h
    by_cases hop : t ∈ ops
    · by_cases htil : t = "~"
      · subst htil
        have hr : rstep st.length (p, "~") = if 1 ≤ st.length then some st.length else none := by
          unfold rstep
          simp [hop]
        rw [hr] at h
        by_cases hlen : 1 ≤ st.length
        · rw [if_pos hlen, Option.some_bind] at h
          cases st with
          | nil => simp at hlen
          | cons x st0 =>
            obtain ⟨st2, hfold, hlen2⟩ := ih (("(not " ++ x ++ ")") :: st0) c2 (by simpa using h)
            refine ⟨st2, ?_, hlen2⟩
            rw [List.foldlM_cons]
            have hc : cstep (x :: st0) (p, "~") = .ok (("(not " ++ x ++ ")") :: st0) := by
              unfold cstep
              simp [hop]
            rw [hc, except_ok_bind]
            exact hfold
        · rw [if_neg hlen] at h
          simp at h
      · have hbin : isBinop t = true := (ops_cases hop).resolve_left htil
        have hr : rstep st.length (p, t)
            = if 2 ≤ st.length then some (st.length - 1) else none := by
          unfold rstep
          simp [hop, htil]
        rw [hr] at h
        by_cases hlen : 2 ≤ st.length
        · rw [if_pos hlen, Option.some_bind] at h
          cases st with
          | nil => simp at hlen
          | cons x st0 =>
            cases st0 with
            | nil => simp at hlen
            | cons y st1 =>
              obtain ⟨st2, hfold, hlen2⟩ := ih
                (("(" ++ (if t = "=>" then "not " else "") ++ y ++ " " ++
                  (if t = "^" then "and" else "or") ++ " " ++ x ++ ")") :: st1) c2
                (by simpa using h)
              refine ⟨st2, ?_, hlen2⟩
              rw [List.foldlM_cons]
              have hc : cstep (x :: y :: st1) (p, t)
                  = .ok (("(" ++ (if t = "=>" then "not " else "") ++ y ++ " " ++
                      (if t = "^" then "and" else "or") ++ " " ++ x ++ ")") :: st1) := by
                unfold cstep
                simp [hop, htil]
              rw [hc, except_ok_bind]
              exact hfold
        · rw [if_neg hlen] at h
          simp at h
    · have hr : rstep st.length (p, t) = some (st.length + 1) := by
        unfold rstep
        simp [hop]
      rw [hr, Option.some_bind] at h
      obtain ⟨st2, hfold, hlen2⟩ := ih (t :: st) c2 (by simpa using h)
      refine ⟨st2, ?_, hlen2⟩
      rw [List.foldlM_cons]
      have hc : cstep st (p, t) = .ok (t :: st) := by
        unfold cstep
        simp [hop]
      rw [hc, except_ok_bind]
      exact hfold



theorem not_after_exp_of {pos : Nat} {token last : String} (h : afterExp last = false) :
    not_after_exp pos token last = .ok () := by
  unfold not_after_exp
  rw [h]
  rfl

theorem not_after_op_of {lp : Int} {last : String} (h : last ∉ ops) :
    not_after_op lp last = .ok () := by
  unfold not_after_op
  rw [if_neg h]

theorem foldlM_cstep_single {st st2 : List String} {pt : Nat × String}
    (h : cstep st pt = .ok st2) : [pt].foldlM cstep st = .ok st2 := by
  simp [List.foldlM_cons, List.foldlM_nil, h]

theorem foldlM_cstep_single_inv {st st2 : List String} {pt : Nat × String}
    (h : [pt].foldlM cstep st = .ok st2) : cstep st pt = .ok st2 := by
  simp only [List.foldlM_cons, List.foldlM_nil] at h
  cases hc : cstep st pt with
  | error e => rw [hc, except_error_bind] at h; exact absurd h (by simp)
  | ok stx => rw [hc, except_ok_bind] at h; cases h; rfl

theorem foldlM_cstep_append {d1 d2 : List (Nat × String)} {st st2 : List String}
    (h : (d1 ++ d2).foldlM cstep st = .ok st2) :
    ∃ stm, d1.foldlM cstep st = .ok stm ∧ d2.foldlM cstep stm = .ok st2 := by
  rw [List.foldlM_append] at h
  cases h1 : d1.foldlM cstep st with
  | error e => rw [h1, except_error_bind] at h; exact absurd h (by simp)
  | ok stm => rw [h1, except_ok_bind] at h; exact ⟨stm, rfl, h⟩

theorem foldlM_cstep_append_of {d1 d2 : List (Nat × String)} {st stm st2 : List String}
    (h1 : d1.foldlM cstep st = .ok stm) (h2 : d2.foldlM cstep stm = .ok st2) :
    (d1 ++ d2).foldlM cstep st = .ok st2 := by
  rw [List.foldlM_append, h1, except_ok_bind]
  exact h2

theorem popCompile_ok_cases :
    ∀ (stack : List (Nat × String)) (st : List String) (rp : Nat)
      (r : List String × List (Nat × String) × List (Nat × String)),
      popCompile st rp stack = .ok r →
      popToLParen stack = some (r.2.1, r.2.2) ∧ r.2.1.foldlM cstep st = .ok r.1 := by
  intro stack
  induction stack with
  | nil => intro st rp r h; simp [popCompile] at h
  | cons pt rest ih =>
    intro st rp r h
    obtain ⟨p, t⟩ := pt
    unfold popCompile at h
    split at h
    · rename_i ht
      cases h
      subst ht
      exact ⟨by simp [popToLParen], rfl⟩
    · rename_i ht
      cases hc : cstep st (p, t) with
      | error e => simp only [hc] at h; exact absurd h (by simp)
      | ok st2 =>
        simp only [hc] at h
        cases hrec : popCompile st2 rp rest with
        | error e => simp only [hrec] at h; exact absurd h (by simp)
        | ok r2 =>
          simp only [hrec] at h
          cases h
          obtain ⟨hpop, hfold⟩ := ih st2 rp r2 hrec
          constructor
          · unfold popToLParen
            rw [if_neg ht, hpop]
          · exact foldlM_cstep_append_of (foldlM_cstep_single hc) hfold

theorem popCompile_of :
    ∀ (stack popped rest : List (Nat × String)) (st st2 : List String) (rp : Nat),
      popToLParen stack = some (popped, rest) → popped.foldlM cstep st = .ok st2 →
      popCompile st rp stack = .ok (st2, popped, rest) := by
  intro stack
  induction stack with
  | nil => intro popped rest st st2 rp h _; simp [popToLParen] at h
  | cons pt stk ih =>
    intro popped rest st st2 rp h hfold
    obtain ⟨p, t⟩ := pt
    unfold popToLParen at h
    split at h
    · rename_i ht
      cases h
      cases hfold
      subst ht
      unfold popCompile
      rw [if_pos rfl]
    · rename_i ht
      cases hrec : popToLParen stk with
      | none => simp only [hrec] at h; exact absurd h (by simp)
      | some pr2 =>
        simp only [hrec] at h
        obtain ⟨popped2, rem2⟩ := pr2
        cases h
        obtain ⟨stm, h1, h2⟩ := foldlM_cstep_append
          (show ([(p, t)] ++ popped2).foldlM cstep st = .ok st2 from hfold)
        unfold popCompile
        rw [if_neg ht]
        simp only [foldlM_cstep_single_inv h1, ih popped2 rem2 stm st2 rp hrec h2]

theorem drainCompile_ok_cases :
    ∀ (stack : List (Nat × String)) (st st2 : List String),
      drainCompile st stack = .ok st2 →
      (∀ pt ∈ stack, pt.2 ≠ "(") ∧ stack.foldlM cstep st = .ok st2 := by
  intro stack
  induction stack with
  | nil =>
    intro st st2 h
    cases h
    exact ⟨by simp, rfl⟩
  | cons pt rest ih =>
    intro st st2 h
    obtain ⟨p, t⟩ := pt
    unfold drainCompile at h
    split at h
    · exact absurd h (by simp)
    · rename_i ht
      cases hc : cstep st (p, t) with
      | error e => simp only [hc] at h; exact absurd h (by simp)
      | ok stm =>
        simp only [hc] at h
        obtain ⟨hno, hfold⟩ := ih stm st2 h
        refine ⟨?_, ?_⟩
        · intro q hq
          rcases List.mem_cons.mp hq with rfl | hm
          · exact ht
          · exact hno q hm
        · exact foldlM_cstep_append_of (foldlM_cstep_single hc) hfold

theorem drainCompile_of :
    ∀ (stack : List (Nat × String)) (st st2 : List String),
      (∀ pt ∈ stack, pt.2 ≠ "(") → stack.foldlM cstep st = .ok st2 →
      drainCompile st stack = .ok st2 := by
  intro stack
  induction stack with
  | nil =>
    intro st st2 _ h
    cases h
    rfl
  | cons pt rest ih =>
    intro st st2 hno hfold
    obtain ⟨p, t⟩ := pt
    obtain ⟨stm, h1, h2⟩ := foldlM_cstep_append
      (show ([(p, t)] ++ rest).foldlM cstep st = .ok st2 from hfold)
    unfold drainCompile
    rw [if_neg (hno (p, t) (List.mem_cons_self _ _)), foldlM_cstep_single_inv h1]
    exact ih stm st2 (fun q hq => hno q (List.mem_cons_of_mem _ hq)) h2

theorem drainStack_of :
    ∀ (stack : List (Nat × String)), (∀ pt ∈ stack, pt.2 ≠ "(") →
      drainStack stack = .ok stack := by
  intro stack
  induction stack with
  | nil => intro _; rfl
  | cons pt rest ih =>
    intro hno
    obtain ⟨p, t⟩ := pt
    unfold drainStack
    rw [if_neg (hno (p, t) (List.mem_cons_self _ _)),
      ih (fun q hq => hno q (List.mem_cons_of_mem _ hq))]

theorem list_append_cancel (xs ys zs : List (Nat × String)) :
    xs ++ ys = xs ++ zs → ys = zs := by
  induction xs with
  | nil => intro h; simpa using h
  | cons a as ih =>
    intro h
    simp only [List.cons_append, List.cons.injEq, true_and] at h
    exact ih h

theorem not_after_op_err {lp : Int} {last : String} (h : last ∈ ops) :
    not_after_op lp last = .error (.missingOperand lp last) := by
  unfold not_after_op
  rw [if_pos h]

theorem pstep_out_mono {s : PState} {pos : Nat} {token : String} {s' : PState}
    (h : pstep s (pos, token) = .ok s') : ∃ d, s'.out = s.out ++ d := by
  rcases pstep_ok_cases h with
      ⟨_, _, rfl⟩ | ⟨_, _, rfl⟩ | ⟨_, _, _, pr, _, rfl⟩ | ⟨_, _, _, _, rfl⟩
  · exact ⟨[(pos, token)], rfl⟩
  · exact ⟨[], by simp⟩
  · exact ⟨pr.1, rfl⟩
  · exact ⟨(popGePrec (precedence token) s.stack).1, rfl⟩

theorem foldlM_pstep_out_mono :
    ∀ (toks : List (Nat × String)) (s s' : PState),
      toks.foldlM pstep s = .ok s' → ∃ d, s'.out = s.out ++ d := by
  intro toks
  induction toks with
  | nil =>
    intro s s' h
    simp only [List.foldlM_nil] at h
    cases h
    exact ⟨[], by simp⟩
  | cons pt rest ih =>
    intro s s' h
    simp only [List.foldlM_cons] at h
    cases hstep : pstep s pt with
    | error e => rw [hstep, except_error_bind] at h; exact absurd h (by simp)
    | ok s1 =>
      rw [hstep, except_ok_bind] at h
      obtain ⟨pos, token⟩ := pt
      obtain ⟨d1, h1⟩ := pstep_out_mono hstep
      obtain ⟨d2, h2⟩ := ih s1 s' h
      exact ⟨d1 ++ d2, by rw [h2, h1, List.append_assoc]⟩

theorem pcstep_to_pstep {s : PState} {st : List String} {pos : Nat} {token : String}
    {sc : PState × List String}
    (h : pcstep (s, st) (pos, token) = .ok sc) :
    pstep s (pos, token) = .ok sc.1 ∧
      ∃ d, sc.1.out = s.out ++ d ∧ d.foldlM cstep st = .ok sc.2 := by
  unfold pcstep at h
  unfold pstep
  dsimp only at h ⊢
  by_cases hatom : isAtomicTok token = true
  · rw [if_pos hatom] at h ⊢
    cases hnae : not_after_exp pos token s.lastTok with
    | error e2 => simp only [hnae] at h; exact absurd h (by simp)
    | ok u =>
      simp only [hnae] at h ⊢
      cases hc : cstep st (pos, token) with
      | error e2 => simp only [hc] at h; exact absurd h (by simp)
      | ok st2 =>
        simp only [hc] at h
        cases h
        exact ⟨rfl, [(pos, token)], rfl, foldlM_cstep_single hc⟩
  · rw [if_neg hatom] at h ⊢
    by_cases hlp : token = "("
    · rw [if_pos hlp] at h ⊢
      cases hnae : not_after_exp pos token s.lastTok with
      | error e2 => simp only [hnae] at h; exact absurd h (by simp)
      | ok u =>
        simp only [hnae] at h ⊢
        cases h
        exact ⟨rfl, [], by simp, rfl⟩
    · rw [if_neg hlp] at h ⊢
      by_cases hrp : token = ")"
      · rw [if_pos hrp] at h ⊢
        by_cases hl : s.lastTok = "("
        · rw [if_pos hl] at h; exact absurd h (by simp)
        · rw [if_neg hl] at h ⊢
          cases hnao : not_after_op s.lastPos s.lastTok with
          | error e2 => simp only [hnao] at h; exact absurd h (by simp)
          | ok u =>
            simp only [hnao] at h ⊢
            cases hpc : popCompile st pos s.stack with
            | error e2 => simp only [hpc] at h; exact absurd h (by simp)
            | ok r =>
              simp only [hpc] at h
              cases h
              obtain ⟨hpop, hfold⟩ := popCompile_ok_cases s.stack st pos r hpc
              rw [hpop]
              exact ⟨rfl, r.2.1, rfl, hfold⟩
      · rw [if_neg hrp] at h ⊢
        cases hg : (if token = "~" then not_after_exp pos token s.lastTok
            else if s.lastTok = "(" then .error (.missingOperand (pos : Int) token)
            else not_after_op s.lastPos s.lastTok) with
        | error e2 => simp only [hg] at h; exact absurd h (by simp)
        | ok u =>
          simp only [hg] at h ⊢
          cases hf : (popGePrec (precedence token) s.stack).1.foldlM cstep st with
          | error e2 => simp only [hf] at h; exact absurd h (by simp)
          | ok st2 =>
            simp only [hf] at h
            cases h
            exact ⟨rfl, (popGePrec (precedence token) s.stack).1, rfl, hf⟩

theorem pstep_to_pcstep {s : PState} {st : List String} {pos : Nat} {token : String}
    {s' : PState} {d : List (Nat × String)} {st' : List String}
    (h : pstep s (pos, token) = .ok s') (hd : s'.out = s.out ++ d)
    (hc : d.foldlM cstep st = .ok st') :
    pcstep (s, st) (pos, token) = .ok (s', st') := by
  rcases pstep_ok_cases h with
      ⟨hatom, hnae, rfl⟩ | ⟨hlp, hnae, rfl⟩ | ⟨hrp, hl, hnops, ⟨popped, rest⟩, hpop, rfl⟩ |
      ⟨hnatom, hnlp, hnrp, hguard, rfl⟩
  · obtain rfl : [(pos, token)] = d := list_append_cancel s.out [(pos, token)] d hd
    have hcc := foldlM_cstep_single_inv hc
    unfold pcstep
    dsimp only
    rw [if_pos hatom]
    simp only [not_after_exp_of hnae, hcc]
  · obtain rfl : ([] : List (Nat × String)) = d :=
      list_append_cancel s.out [] d (by simpa using hd)
    cases hc
    subst hlp
    unfold pcstep
    dsimp only
    rw [if_neg (by decide : ¬ isAtomicTok "(" = true), if_pos rfl]
    simp only [not_after_exp_of hnae]
  · obtain rfl : popped = d := list_append_cancel s.out popped d hd
    subst hrp
    have hpc : popCompile st pos s.stack = .ok (st', popped, rest) :=
      popCompile_of s.stack popped rest st st' pos hpop hc
    unfold pcstep
    dsimp only
    rw [if_neg (by decide : ¬ isAtomicTok ")" = true),
      if_neg (by decide : ¬ (")" : String) = "("), if_pos rfl, if_neg hl]
    simp only [not_after_op_of hnops, hpc]
  · obtain rfl : (popGePrec (precedence token) s.stack).1 = d :=
      list_append_cancel s.out (popGePrec (precedence token) s.stack).1 d hd
    unfold pcstep
    dsimp only
    rw [if_neg hnatom, if_neg hnlp, if_neg hnrp]
    rcases hguard with ⟨htil, hnae⟩ | ⟨hntil, hnl, hnops⟩
    · rw [if_pos htil]
      simp only [not_after_exp_of hnae, hc]
    · rw [if_neg hntil, if_neg hnl]
      simp only [not_after_op_of hnops, hc]

theorem foldlM_pcstep_split :
    ∀ (toks : List (Nat × String)) (s0 : PState) (st0 : List String)
      (sc : PState × List String),
      toks.foldlM pcstep (s0, st0) = .ok sc →
      toks.foldlM pstep s0 = .ok sc.1 ∧
        ∃ d, sc.1.out = s0.out ++ d ∧ d.foldlM cstep st0 = .ok sc.2 := by
  intro toks
  induction toks with
  | nil =>
    intro s0 st0 sc h
    simp only [List.foldlM_nil] at h
    cases h
    exact ⟨rfl, [], by simp, rfl⟩
  | cons pt rest ih =>
    intro s0 st0 sc h
    simp only [List.foldlM_cons] at h ⊢
    obtain ⟨pos, token⟩ := pt
    cases h1 : pcstep (s0, st0) (pos, token) with
    | error e2 => rw [h1, except_error_bind] at h; exact absurd h (by simp)
    | ok sc1 =>
      rw [h1, except_ok_bind] at h
      obtain ⟨s1, st1⟩ := sc1
      obtain ⟨hp1, d1, hout1, hc1⟩ := pcstep_to_pstep h1
      obtain ⟨hpr, d2, hout2, hc2⟩ := ih s1 st1 sc h
      refine ⟨?_, d1 ++ d2, ?_, ?_⟩
      · rw [hp1, except_ok_bind]
        exact hpr
      · rw [hout2]
        rw [show (s1, st1).1.out = s0.out ++ d1 from hout1, List.append_assoc]
      · exact foldlM_cstep_append_of hc1 hc2

theorem foldlM_pstep_to_pcstep :
    ∀ (toks : List (Nat × String)) (s0 : PState) (st0 : List String)
      (s : PState) (d : List (Nat × String)) (st : List String),
      toks.foldlM pstep s0 = .ok s → s.out = s0.out ++ d →
      d.foldlM cstep st0 = .ok st →
      toks.foldlM pcstep (s0, st0) = .ok (s, st) := by
  intro toks
  induction toks with
  | nil =>
    intro s0 st0 s d st h hd hc
    simp only [List.foldlM_nil] at h ⊢
    cases h
    obtain rfl : ([] : List (Nat × String)) = d :=
      list_append_cancel s0.out [] d (by simpa using hd)
    cases hc
    rfl
  | cons pt rest ih =>
    intro s0 st0 s d st h hd hc
    simp only [List.foldlM_cons] at h ⊢
    obtain ⟨pos, token⟩ := pt
    cases h1 : pstep s0 (pos, token) with
    | error e2 => rw [h1, except_error_bind] at h; exact absurd h (by simp)
    | ok s1 =>
      rw [h1, except_ok_bind] at h
      obtain ⟨d1, hout1⟩ := pstep_out_mono h1
      obtain ⟨d2, hout2⟩ := foldlM_pstep_out_mono rest s1 s h
      obtain rfl : d1 ++ d2 = d := by
        apply list_append_cancel s0.out
        rw [← List.append_assoc, ← hout1, ← hout2, ← hd]
      obtain ⟨stm, hc1, hc2⟩ := foldlM_cstep_append hc
      rw [pstep_to_pcstep h1 hout1 hc1, except_ok_bind]
      exact ih s1 stm s d2 st h hout2 hc2

/-- C7 (amended): when the scanned tokens drive the interleaved
parse-and-compile loop to completion without error and the final token is an
operator, compilation fails with the missing-operand error at that final
operator's position, naming it. -/
theorem trailing_operator_error (e : String) (toks : List (Nat × String))
    (s : PState) (st : List String) (p : Nat) (t : String)
    (hscan : scanner (lowerStr e) = .ok toks)
    (hfold : toks.foldlM pcstep (pinit, []) = .ok (s, st))
    (hlast : toks.getLast? = some (p, t))
    (hop : t ∈ ops) :
    compile_to_python e = .error (.missingOperand (p : Int) t) := by
  obtain ⟨hpfold, _⟩ := foldlM_pcstep_split toks pinit [] (s, st) hfold
  have hne : toks ≠ [] := by intro hn; subst hn; simp at hlast
  rcases foldlM_pstep_last toks pinit (s, st).1 hpfold with ⟨h1, _⟩ | ⟨pt, hpt, hpos, htok⟩
  · exact absurd h1 hne
  · rw [hlast] at hpt
    obtain rfl : (p, t) = pt := Option.some_inj.mp hpt
    have hnao : not_after_op (s, st).1.lastPos (s, st).1.lastTok
        = .error (.missingOperand (p : Int) t) := by
      rw [htok, hpos]
      exact not_after_op_err hop
    unfold compile_to_python
    simp only [hscan, hfold, hnao]

/-- Witness for C7 at the formula `a ^`: the interleaved loop accepts both
tokens (compiling `a` at once) and the trailing `^` at position 2 is then
reported as the missing operand. -/
theorem trailing_operator_error_witness :
    scanner (lowerStr "a ^") = .ok [(0, "a"), (2, "^")] ∧
    List.foldlM pcstep (pinit, []) [((0 : Nat), "a"), (2, "^")] =
      .ok (⟨[(2, "^")], 2, "^", [(0, "a")]⟩, ["a"]) ∧
    List.getLast? [((0 : Nat), "a"), (2, "^")] = some (2, "^") ∧ "^" ∈ ops ∧
    compile_to_python "a ^" = .error (.missingOperand 2 "^") :=
  ⟨rfl, rfl, rfl, by decide,
    trailing_operator_error "a ^" [(0, "a"), (2, "^")] ⟨[(2, "^")], 2, "^", [(0, "a")]⟩
      ["a"] 2 "^" rfl rfl rfl (by decide)⟩

/-- C2 (amended): when the scanned tokens are non-empty, do not start with a
binary operator, and contain no two adjacent negations, a successful
`parse_rpn` yields well-formed postfix — the standard operand-stack replay
never underflows and ends with exactly one operand — so the compiler's
defensive missing-operand branch never fires and compilation returns exactly
one expression. -/
theorem parser_postfix_wellformed (e : String) (toks ts : List (Nat × String))
    (hscan : scanner (lowerStr e) = .ok toks)
    (hhead : headNotBinop toks = true)
    (htt : hasTildeTilde toks = false)
    (hparse : parse_rpn e = .ok ts) :
    replay ts = some 1 ∧ ∃ py, compile_to_python e = .ok py := by
  obtain ⟨toks2, s, hscan2, hfold, hfin⟩ := parse_rpn_ok_cases hparse
  have heq : toks = toks2 := by
    rw [hscan] at hscan2
    exact Except.ok.inj hscan2
  subst heq
  have hstoks := scanner_toks hscan
  have hgr : goodRun "\x00" toks := goodRun_of toks hstoks htt hhead
  have hinv : ParseInv s := foldlM_pinv toks pinit s pinit_inv hstoks hgr hfold
  obtain ⟨hnop, hnolp, rfl⟩ := pfinal_ok_cases hfin
  obtain ⟨hA, hB, hC, hD, hE, hF⟩ := hinv
  have htoksne : toks ≠ [] := by
    intro h0
    subst h0
    simp [headNotBinop] at hhead
  have hlast : s.lastTok ∈ scanToks := by
    rcases foldlM_pstep_last toks pinit s hfold with ⟨h1, _⟩ | ⟨pt, hptlast, _, hlasttok⟩
    · exact absurd h1 htoksne
    · rw [hlasttok]
      exact hstoks pt (getLast?_mem hptlast)
  have hlp : ¬ s.lastTok = "(" := by
    intro h0
    obtain ⟨pt, hpt, hsnd⟩ := List.mem_map.mp (hD h0)
    exact hnolp pt hpt hsnd
  have h1 : eTok s.lastTok = 1 := eTok_one_of hlast hnop hlp
  rw [h1] at hA
  have hstackops : ∀ pt ∈ s.stack, pt.2 ∈ ops :=
    fun pt hpt => (hB pt hpt).resolve_right (hnolp pt hpt)
  have hreplay : replay (s.out ++ s.stack) = some 1 := by
    unfold replay at hA ⊢
    rw [replayFrom_append, hA, Option.some_bind,
      replayFrom_ops s.stack hstackops _ (by omega)]
    congr 1
    omega
  refine ⟨hreplay, ?_⟩
  obtain ⟨st2, hfoldc, hlen⟩ := foldlM_cstep_of_replay (s.out ++ s.stack) [] 1 hreplay
  cases st2 with
  | nil => simp at hlen
  | cons py rest2 =>
    have hrest2 : rest2 = [] := by simpa using hlen
    subst hrest2
    obtain ⟨stm, hc1, hc2⟩ := foldlM_cstep_append hfoldc
    have hpc : toks.foldlM pcstep (pinit, []) = .ok (s, stm) :=
      foldlM_pstep_to_pcstep toks pinit [] s s.out stm hfold rfl hc1
    have hdc : drainCompile stm s.stack = .ok [py] :=
      drainCompile_of s.stack stm [py] hnolp hc2
    refine ⟨stripParens py, ?_⟩
    unfold compile_to_python
    simp only [hscan, hpc, not_after_op_of hnop, hdc]

/-- Witness for C2 at the formula `a ^ b`. -/
theorem parser_postfix_wellformed_witness :
    scanner (lowerStr "a ^ b") = .ok [(0, "a"), (2, "^"), (4, "b")] ∧
    headNotBinop [(0, "a"), (2, "^"), (4, "b")] = true ∧
    hasTildeTilde [(0, "a"), (2, "^"), (4, "b")] = false ∧
    parse_rpn "a ^ b" = .ok [(0, "a"), (4, "b"), (2, "^")] ∧
    (replay [(0, "a"), (4, "b"), (2, "^")] = some 1 ∧
      ∃ py, compile_to_python "a ^ b" = .ok py) :=
  ⟨rfl, by decide, by decide, rfl,
    parser_postfix_wellformed "a ^ b" [(0, "a"), (2, "^"), (4, "b")]
      [(0, "a"), (4, "b"), (2, "^")] rfl (by decide) (by decide) rfl⟩

/-- C10: every string returned by `compile_to_python` is built only from the
atomic letters, parentheses, spaces, and the letters of `not`, `and`, `or`. -/
theorem compiled_charset_safe (e : String) (s : String)
    (h : compile_to_python e = .ok s) : allowedStr s = true := by
  unfold compile_to_python at h
  cases hscan : scanner (lowerStr e) with
  | error e2 => simp only [hscan] at h; exact absurd h (by simp)
  | ok toks =>
    simp only [hscan] at h
    cases hfold : toks.foldlM pcstep (pinit, []) with
    | error e2 => simp only [hfold] at h; exact absurd h (by simp)
    | ok sc =>
      simp only [hfold] at h
      obtain ⟨s1, st1⟩ := sc
      dsimp only at h
      cases hnao : not_after_op s1.lastPos s1.lastTok with
      | error e2 => simp only [hnao] at h; exact absurd h (by simp)
      | ok u =>
        simp only [hnao] at h
        cases hdc : drainCompile st1 s1.stack with
        | error e2 => simp only [hdc] at h; exact absurd h (by simp)
        | ok result =>
          simp only [hdc] at h
          cases result with
          | nil => exact absurd h (by simp)
          | cons compiled rest =>
            cases h
            obtain ⟨hpfold, d, hout, hcfold⟩ :=
              foldlM_pcstep_split toks pinit [] (s1, st1) hfold
            have hd : s1.out = d := hout
            have hcfold2 : s1.out.foldlM cstep [] = .ok st1 := by
              rw [hd]
              exact hcfold
            obtain ⟨hnolp, hdrain⟩ := drainCompile_ok_cases s1.stack st1 (compiled :: rest) hdc
            have hinv : OutStackInv s1 :=
              foldlM_outinv toks pinit s1 ⟨by simp [pinit], by simp [pinit]⟩
                (scanner_toks hscan) hpfold
            have hall : ∀ pt ∈ s1.out ++ s1.stack, isAtomicTok pt.2 = true ∨ pt.2 ∈ ops := by
              intro pt hpt
              rcases List.mem_append.mp hpt with hm | hm
              · exact hinv.1 pt hm
              · rcases hinv.2 pt hm with hop | hlp2
                · exact Or.inr hop
                · exact absurd hlp2 (hnolp pt hm)
            have hcomb : (s1.out ++ s1.stack).foldlM cstep [] = .ok (compiled :: rest) :=
              foldlM_cstep_append_of hcfold2 hdrain
            have hallowed := foldlM_cstep_allowed (s1.out ++ s1.stack) [] (compiled :: rest)
              (by simp) hall hcomb
            exact stripParens_allowed (hallowed compiled (List.mem_cons_self _ _))

/-- Witness for C10 at the formula `a ^ b`, compiled to `a and b`. -/
theorem compiled_charset_safe_witness :
    compile_to_python "a ^ b" = .ok "a and b" ∧ allowedStr "a and b" = true :=
  ⟨rfl, compiled_charset_safe "a ^ b" "a and b" rfl⟩
